import Mathlib

/-!
Verification of the discovery subsystem of `src/commands/candidates.js`
(`scanTree`, `groupComposeProjects`, `collapseChildProjects`,
`attachDockerfilesToProjects`, the hints pass of `candidatesCommand`) and the
CLI option defaults of the `candidates` command.

Modelling conventions:
* An absolute filesystem path is represented as its list of segments
  (`Path := List String`).  `path.join dir name` is `dir ++ [name]`,
  `path.dirname` is `List.dropLast`, `path.basename` is `List.getLastD`.
  The JS tests `a === b || a.startsWith(b + path.sep)` on absolute path
  strings coincide with prefix-or-equal on segment lists (segments returned
  by `readdir` never contain the separator).
* The string view of an absolute path is `absStr p = "/s₁/s₂/…/sₙ"`, so the
  JS `projectDir.length` used for sorting is `absLen p = Σ|sᵢ| + n`.
  `localeCompare` is modelled as lexicographic `≤` on those strings.
* `Array.prototype.sort` with a comparator is required to be stable by the
  JS spec; it is modelled by the stable `List.insertionSort` with the
  relation `cmp a b ≤ 0`.
* The filesystem is a finite tree `FsNode`; a directory whose `readdir`
  throws (caught by the walker's `try/catch`) carries `children = none`.
  Entries that are neither files nor directories are `FsNode.other`.
* The ignore rule engine lives in `src/lib/ignore.js`, which is not part of
  the sources; the walker therefore takes the `shouldIgnore` test as an
  abstract parameter `ign : String → Bool`, applied exactly as the source
  applies `shouldIgnore` (with `rel ++ "/"` for directories).
* Fallible file reads (`readFileBounded`) read from an abstract content map
  `List String → Option String`; `none` models any thrown read error.
-/

namespace Podshift

/-- Absolute or relative path, as the list of its segments. -/
abbrev Path := List String

/-- Length of the string view `"/s₁/…/sₙ"` of an absolute path: the JS
`projectDir.length` used by the length-based sorts. -/
def absLen (p : Path) : Nat := (p.map String.length).sum + p.length

/-- String view of an absolute path (`"/s₁/s₂/…"`), used to model
`localeCompare` on `projectDir` strings. -/
def absStr (p : Path) : String := p.foldr (fun s acc => "/" ++ s ++ acc) ""

/-- String view of a root-relative path, as produced by `rel()` in the
source (`path.relative` with separators normalised to `/`, i.e. the
segments joined by `/`). -/
def relStr : Path → String
  | [] => ""
  | [s] => s
  | s :: rest => s ++ "/" ++ relStr rest

/-- `rel(rootAbs, abs)`: the path of `abs` relative to `root`. -/
def relOf (root abs : Path) : Path := abs.drop root.length

/-!
The JS string primitives used by the classifiers are modelled on the
character list underlying `String`, so that they compute by structural
recursion (the kernel can evaluate them on literals).  `toLowerCase` (and
the `/i` regex flag) is modelled as ASCII case folding, which is faithful
for the ASCII-only pattern literals involved.
-/

/-- ASCII lower-casing of one character. -/
def lowerChar (c : Char) : Char :=
  if 'A' ≤ c && c ≤ 'Z' then Char.ofNat (c.toNat + 32) else c

/-- `s.toLowerCase()` (ASCII model). -/
def strLower (s : String) : String := ⟨s.data.map lowerChar⟩

/-- `s.startsWith(pre)`. -/
def strStartsWith (s pre : String) : Bool := pre.data.isPrefixOf s.data

/-- `s.endsWith(suf)`. -/
def strEndsWith (s suf : String) : Bool := suf.data.isSuffixOf s.data

/-- `s.slice(n)`: drop the first `n` characters. -/
def strDrop (s : String) (n : Nat) : String := ⟨s.data.drop n⟩

/-- `s.length`. -/
def strLen (s : String) : Nat := s.data.length

/-- `a.localeCompare(b) < 0`: strict lexicographic comparison, on the
character lists (the byte-position-based core `String` order is
definitionally opaque to the kernel). -/
def strLt (a b : String) : Prop := a.data < b.data

/-- `a.localeCompare(b) ≤ 0`: lexicographic comparison. -/
def strLe (a b : String) : Prop := a.data ≤ b.data

instance : ∀ a b, Decidable (strLt a b) := fun a b =>
  inferInstanceAs (Decidable (a.data < b.data))

instance : ∀ a b, Decidable (strLe a b) := fun a b =>
  inferInstanceAs (Decidable (a.data ≤ b.data))

theorem strData_inj {a b : String} (h : a.data = b.data) : a = b := by
  cases a
  cases b
  exact congrArg String.mk h

/-- Tail test for the regexes `/^docker-compose(\..+)?\.(yml|yaml)$/i` and
`/^compose(\..+)?\.(yml|yaml)$/i`: `rest` (what follows the literal prefix,
already lower-cased) matches `(\..+)?\.(yml|yaml)$` — either exactly
`.yml`/`.yaml` (optional group absent), or `.` + a nonempty middle +
`.yml`/`.yaml` (group present). -/
def composeTailMatch (rest : String) : Bool :=
  rest == ".yml" || rest == ".yaml" ||
  (strStartsWith rest "." && strEndsWith rest ".yml" && decide (5 < strLen rest)) ||
  (strStartsWith rest "." && strEndsWith rest ".yaml" && decide (6 < strLen rest))

/-- `isComposeFile(name)` from the source (the two case-insensitive
regexes). -/
def isComposeFile (name : String) : Bool :=
  let n := strLower name
  (strStartsWith n "docker-compose" && composeTailMatch (strDrop n 14)) ||
  (strStartsWith n "compose" && composeTailMatch (strDrop n 7))

/-- `isDockerfile(name)` from the source. -/
def isDockerfile (name : String) : Bool :=
  name == "Dockerfile" || strStartsWith name "Dockerfile."

/-- A node of the scanned filesystem tree.  A directory whose read fails
(permission denied, removed mid-scan) has `children = none`. -/
inductive FsNode where
  | file (name : String)
  | dir (name : String) (children : Option (List FsNode))
  | other (name : String)
deriving Repr

/-- Size of a node, for the walker's termination measure. -/
def FsNode.weight : FsNode → Nat
  | .file _ => 1
  | .other _ => 1
  | .dir _ none => 1
  | .dir _ (some cs) => 1 + (cs.attach.map (fun x => x.1.weight)).sum
decreasing_by
  have hm := List.sizeOf_lt_of_mem x.2
  simp only [FsNode.dir.sizeOf_spec, Option.some.sizeOf_spec]
  omega

/-- Total weight of a list of nodes. -/
def nodesWeight (l : List FsNode) : Nat := (l.map FsNode.weight).sum

theorem FsNode.weight_dir_some (n : String) (cs : List FsNode) :
    FsNode.weight (.dir n (some cs)) = 1 + nodesWeight cs := by
  rw [FsNode.weight, nodesWeight, List.attach_map_val cs FsNode.weight]

theorem FsNode.one_le_weight (e : FsNode) : 1 ≤ e.weight := by
  cases e with
  | file _ => simp [FsNode.weight]
  | other _ => simp [FsNode.weight]
  | dir n cs =>
    cases cs with
    | none => simp [FsNode.weight]
    | some l => rw [FsNode.weight_dir_some]; omega

/-- Mutable state of one `scanTree` run (the `composeFiles`, `dockerfiles`,
`scanned`, `ignored` locals). -/
structure WalkSt where
  compose : List Path
  docker : List Path
  scanned : Nat
  ignored : Nat
deriving Repr, DecidableEq

/-- Return value of `scanTree` (the `ignoreMeta` diagnostics field is not
modelled: no claim refers to it). -/
structure ScanResult where
  composeFiles : List Path
  dockerfiles : List Path
  scannedEntries : Nat
  ignoredEntries : Nat
  truncated : Bool
deriving Repr, DecidableEq

/-- One pending item of the explicit work stack: a directory's
root-relative path, its depth, and its children (`none` if reading the
directory throws). -/
structure StackItem where
  dir : Path
  depth : Nat
  children : Option (List FsNode)

/-- The `for (const ent of entries)` loop body of `scanTree`.  Returns
`.error` for the early `return` taken when the entry budget is exceeded,
otherwise the work stack (with subdirectories pushed on top) and the
updated counters and match lists. -/
def processEntries (ign : String → Bool) (maxEntries : Nat) (root : Path)
    (rdir : Path) (depth : Nat) :
    List FsNode → List StackItem → WalkSt → Except ScanResult (List StackItem × WalkSt)
  | [], stack, st => .ok (stack, st)
  | e :: rest, stack, st =>
    let scanned := st.scanned + 1
    if maxEntries < scanned then
      .error
        { composeFiles := st.compose
          dockerfiles := st.docker
          scannedEntries := scanned
          ignoredEntries := st.ignored
          truncated := true }
    else
      match e with
      | .dir name cs =>
        let r := rdir ++ [name]
        if ign (relStr r ++ "/") then
          processEntries ign maxEntries root rdir depth rest stack
            { st with scanned := scanned, ignored := st.ignored + 1 }
        else
          processEntries ign maxEntries root rdir depth rest
            ({ dir := r, depth := depth + 1, children := cs } :: stack)
            { st with scanned := scanned }
      | .file name =>
        let r := rdir ++ [name]
        if ign (relStr r) then
          processEntries ign maxEntries root rdir depth rest stack
            { st with scanned := scanned, ignored := st.ignored + 1 }
        else
          processEntries ign maxEntries root rdir depth rest stack
            { st with
              scanned := scanned
              compose := if isComposeFile name then st.compose ++ [root ++ r] else st.compose
              docker := if isDockerfile name then st.docker ++ [root ++ r] else st.docker }
      | .other _ =>
        processEntries ign maxEntries root rdir depth rest stack
          { st with scanned := scanned }

/-- Weight of a pending directory's children, for termination. -/
def childWeight : Option (List FsNode) → Nat
  | none => 0
  | some cs => nodesWeight cs

/-- Termination measure of the walker's work stack. -/
def stackMeasure (stack : List StackItem) : Nat :=
  (stack.map (fun it => 1 + childWeight it.children)).sum

theorem processEntries_stackMeasure (ign : String → Bool) (maxEntries : Nat)
    (root : Path) (rdir : Path) (depth : Nat) :
    ∀ (entries : List FsNode) (stack : List StackItem) (st : WalkSt)
      (stack' : List StackItem) (st' : WalkSt),
      processEntries ign maxEntries root rdir depth entries stack st = .ok (stack', st') →
      stackMeasure stack' ≤ nodesWeight entries + stackMeasure stack := by
  intro entries
  induction entries with
  | nil =>
    intro stack st stack' st' h
    simp only [processEntries] at h
    cases h
    simp
  | cons e rest ih =>
    intro stack st stack' st' h
    simp only [processEntries] at h
    split at h
    · exact absurd h (by simp)
    · have hw : nodesWeight (e :: rest) = e.weight + nodesWeight rest := by
        simp [nodesWeight]
      have hw1 : 1 ≤ e.weight := FsNode.one_le_weight e
      cases e with
      | dir name cs =>
        simp only at h
        split at h
        · have hrec := ih _ _ _ _ h
          omega
        · have hrec := ih _ _ _ _ h
          have hpush : stackMeasure (⟨rdir ++ [name], depth + 1, cs⟩ :: stack)
              = 1 + childWeight cs + stackMeasure stack := by
            simp [stackMeasure]
          rw [hpush] at hrec
          have hcw : 1 + childWeight cs ≤ FsNode.weight (.dir name cs) := by
            cases cs with
            | none => simp [childWeight, FsNode.weight]
            | some l => rw [FsNode.weight_dir_some]; simp [childWeight]
          omega
      | file name =>
        simp only at h
        split at h <;> · have := ih _ _ _ _ h; omega
      | other name =>
        simp only at h
        have := ih _ _ _ _ h
        omega

/-- The `while (stack.length)` loop of `scanTree`. -/
def walkStack (ign : String → Bool) (maxDepth maxEntries : Nat) (root : Path) :
    List StackItem → WalkSt → ScanResult
  | [], st =>
    { composeFiles := st.compose
      dockerfiles := st.docker
      scannedEntries := st.scanned
      ignoredEntries := st.ignored
      truncated := false }
  | it :: stack, st =>
    if maxDepth < it.depth then
      walkStack ign maxDepth maxEntries root stack st
    else
      match hc : it.children with
      | none => walkStack ign maxDepth maxEntries root stack st
      | some entries =>
        match h : processEntries ign maxEntries root it.dir it.depth entries stack st with
        | .error res => res
        | .ok (stack', st') => walkStack ign maxDepth maxEntries root stack' st'
termination_by stack _ => stackMeasure stack
decreasing_by
  · simp only [stackMeasure, List.map_cons, List.sum_cons]
    omega
  · simp only [stackMeasure, List.map_cons, List.sum_cons]
    omega
  · have hle := processEntries_stackMeasure ign maxEntries root it.dir it.depth entries
      stack st stack' st' h
    have hit : stackMeasure (it :: stack) = 1 + childWeight it.children + stackMeasure stack := by
      simp [stackMeasure]
    rw [hc] at hit
    simp only [childWeight] at hit
    omega

/-- Caller options of `scanTree` that the claims refer to.  `none` models a
caller that omits the option (`Number.isFinite` is false). -/
structure ScanOpts where
  maxDepth : Option Nat := none
  maxEntries : Option Nat := none

/-- `scanTree(rootAbs, opts)`: bounded, iterative stack-based walk from the
root.  `rootChildren` is the result of reading the root directory itself. -/
def scanTree (root : Path) (rootChildren : Option (List FsNode))
    (ign : String → Bool) (opts : ScanOpts) : ScanResult :=
  let maxDepth := opts.maxDepth.getD 20
  let maxEntries := opts.maxEntries.getD 250000
  walkStack ign maxDepth maxEntries root [⟨[], 0, rootChildren⟩] ⟨[], [], 0, 0⟩

/-! ### Unfolding lemmas for the walker loop -/

theorem walkStack_nil (ign : String → Bool) (maxDepth maxEntries : Nat) (root : Path)
    (st : WalkSt) :
    walkStack ign maxDepth maxEntries root [] st =
    { composeFiles := st.compose
      dockerfiles := st.docker
      scannedEntries := st.scanned
      ignoredEntries := st.ignored
      truncated := false } := by
  rw [walkStack]

theorem walkStack_cons_deep {ign : String → Bool} {maxDepth maxEntries : Nat} {root : Path}
    {it : StackItem} {stack : List StackItem} {st : WalkSt} (h : maxDepth < it.depth) :
    walkStack ign maxDepth maxEntries root (it :: stack) st =
    walkStack ign maxDepth maxEntries root stack st := by
  rw [walkStack]
  simp [h]

theorem walkStack_cons_none {ign : String → Bool} {maxDepth maxEntries : Nat} {root : Path}
    {it : StackItem} {stack : List StackItem} {st : WalkSt} (h : it.children = none) :
    walkStack ign maxDepth maxEntries root (it :: stack) st =
    walkStack ign maxDepth maxEntries root stack st := by
  rw [walkStack]
  by_cases hd : maxDepth < it.depth
  · simp [hd]
  · simp only [hd, if_false]
    split
    · rfl
    · rename_i entries hcs
      rw [h] at hcs
      cases hcs

theorem walkStack_cons_error {ign : String → Bool} {maxDepth maxEntries : Nat} {root : Path}
    {it : StackItem} {stack : List StackItem} {st : WalkSt} {entries : List FsNode}
    {res : ScanResult} (hd : ¬ maxDepth < it.depth) (hcs : it.children = some entries)
    (hpe : processEntries ign maxEntries root it.dir it.depth entries stack st = .error res) :
    walkStack ign maxDepth maxEntries root (it :: stack) st = res := by
  rw [walkStack]
  simp only [hd, if_false]
  split
  · rename_i hnone
    rw [hcs] at hnone
    cases hnone
  · rename_i entries' hcs'
    rw [hcs] at hcs'
    cases hcs'
    split
    · rename_i res' hpe'
      rw [hpe] at hpe'
      cases hpe'
      rfl
    · rename_i stack' st' hpe'
      rw [hpe] at hpe'
      cases hpe'

theorem walkStack_cons_ok {ign : String → Bool} {maxDepth maxEntries : Nat} {root : Path}
    {it : StackItem} {stack : List StackItem} {st : WalkSt} {entries : List FsNode}
    {stack' : List StackItem} {st' : WalkSt}
    (hd : ¬ maxDepth < it.depth) (hcs : it.children = some entries)
    (hpe : processEntries ign maxEntries root it.dir it.depth entries stack st = .ok (stack', st')) :
    walkStack ign maxDepth maxEntries root (it :: stack) st =
    walkStack ign maxDepth maxEntries root stack' st' := by
  rw [walkStack]
  simp only [hd, if_false]
  split
  · rename_i hnone
    rw [hcs] at hnone
    cases hnone
  · rename_i entries' hcs'
    rw [hcs] at hcs'
    cases hcs'
    split
    · rename_i res' hpe'
      rw [hpe] at hpe'
      cases hpe'
    · rename_i stack'' st'' hpe'
      rw [hpe] at hpe'
      cases hpe'
      rfl

/-! ### Truncation invariant -/

theorem processEntries_error_inv {ign : String → Bool} {maxEntries : Nat} {root : Path}
    {rdir : Path} {depth : Nat} :
    ∀ {entries : List FsNode} {stack : List StackItem} {st : WalkSt} {res : ScanResult},
      st.scanned ≤ maxEntries →
      processEntries ign maxEntries root rdir depth entries stack st = .error res →
      res.truncated = true ∧ res.scannedEntries = maxEntries + 1 := by
  intro entries
  induction entries with
  | nil =>
    intro stack st res _ h
    simp only [processEntries] at h
    exact absurd h (by simp)
  | cons e rest ih =>
    intro stack st res hst h
    simp only [processEntries] at h
    split at h
    · rename_i hover
      cases h
      exact ⟨rfl, by simp only; omega⟩
    · rename_i hover
      have hst' : st.scanned + 1 ≤ maxEntries := by omega
      cases e with
      | dir name cs =>
        simp only at h
        split at h <;> exact ih hst' h
      | file name =>
        simp only at h
        split at h <;> exact ih hst' h
      | other name =>
        simp only at h
        exact ih hst' h

theorem processEntries_ok_inv {ign : String → Bool} {maxEntries : Nat} {root : Path}
    {rdir : Path} {depth : Nat} :
    ∀ {entries : List FsNode} {stack : List StackItem} {st : WalkSt}
      {stack' : List StackItem} {st' : WalkSt},
      st.scanned ≤ maxEntries →
      processEntries ign maxEntries root rdir depth entries stack st = .ok (stack', st') →
      st'.scanned ≤ maxEntries := by
  intro entries
  induction entries with
  | nil =>
    intro stack st stack' st' hst h
    simp only [processEntries] at h
    cases h
    exact hst
  | cons e rest ih =>
    intro stack st stack' st' hst h
    simp only [processEntries] at h
    split at h
    · exact absurd h (by simp)
    · rename_i hover
      have hst' : st.scanned + 1 ≤ maxEntries := by omega
      cases e with
      | dir name cs =>
        simp only at h
        split at h <;> exact ih hst' h
      | file name =>
        simp only at h
        split at h <;> exact ih hst' h
      | other name =>
        simp only at h
        exact ih hst' h

theorem walkStack_truncation_inv (ign : String → Bool) (maxDepth maxEntries : Nat)
    (root : Path) :
    ∀ (stack : List StackItem) (st : WalkSt), st.scanned ≤ maxEntries →
      ((walkStack ign maxDepth maxEntries root stack st).truncated = true →
        (walkStack ign maxDepth maxEntries root stack st).scannedEntries = maxEntries + 1) ∧
      ((walkStack ign maxDepth maxEntries root stack st).truncated = false →
        (walkStack ign maxDepth maxEntries root stack st).scannedEntries ≤ maxEntries) := by
  intro stack st
  induction stack, st using walkStack.induct ign maxDepth maxEntries root with
  | case1 st =>
    intro hst
    rw [walkStack_nil]
    refine ⟨fun h => ?_, fun _ => hst⟩
    cases h
  | case2 it stack st hd ih =>
    intro hst
    rw [walkStack_cons_deep hd]
    exact ih hst
  | case3 it stack st hd hnone ih =>
    intro hst
    rw [walkStack_cons_none hnone]
    exact ih hst
  | case4 it stack st hd entries hcs res hpe =>
    intro hst
    rw [walkStack_cons_error hd hcs hpe]
    have := processEntries_error_inv hst hpe
    exact ⟨fun _ => this.2, fun h => by rw [this.1] at h; cases h⟩
  | case5 it stack st hd entries hcs stack' st' hpe ih =>
    intro hst
    rw [walkStack_cons_ok hd hcs hpe]
    exact ih (processEntries_ok_inv hst hpe)

/-- C2: for every root and finite `maxEntries`, once the number of scanned
entries exceeds `maxEntries` the scan stops immediately with
`truncated = true` (so `scannedEntries` never exceeds `maxEntries + 1`, and
`truncated` holds exactly when the budget was exceeded), and the walk is a
total function — it never raises.  In particular a root with 5 files under
`maxEntries = 1` returns `truncated = true` with `scannedEntries ≤ 2`. -/
theorem scanTree_truncation_safe :
    (∀ (root : Path) (cs : Option (List FsNode)) (ign : String → Bool) (opts : ScanOpts),
      (scanTree root cs ign opts).scannedEntries ≤ opts.maxEntries.getD 250000 + 1 ∧
      ((scanTree root cs ign opts).truncated = true ↔
        opts.maxEntries.getD 250000 < (scanTree root cs ign opts).scannedEntries)) ∧
    ((scanTree [] (some [.file "a", .file "b", .file "c", .file "d", .file "e"])
        (fun _ => false) { maxEntries := some 1 }).truncated = true ∧
      (scanTree [] (some [.file "a", .file "b", .file "c", .file "d", .file "e"])
        (fun _ => false) { maxEntries := some 1 }).scannedEntries ≤ 2) := by
  constructor
  · intro root cs ign opts
    have hinv := walkStack_truncation_inv ign (opts.maxDepth.getD 20)
      (opts.maxEntries.getD 250000) root [⟨[], 0, cs⟩] ⟨[], [], 0, 0⟩ (by simp)
    simp only [scanTree]
    constructor
    · rcases Bool.eq_false_or_eq_true
        (walkStack ign (opts.maxDepth.getD 20) (opts.maxEntries.getD 250000) root
          [⟨[], 0, cs⟩] ⟨[], [], 0, 0⟩).truncated with h | h
      · have := hinv.1 h
        omega
      · have := hinv.2 h
        omega
    · constructor
      · intro h
        have := hinv.1 h
        omega
      · intro h
        rcases Bool.eq_false_or_eq_true
          (walkStack ign (opts.maxDepth.getD 20) (opts.maxEntries.getD 250000) root
            [⟨[], 0, cs⟩] ⟨[], [], 0, 0⟩).truncated with h' | h'
        · exact h'
        · have := hinv.2 h'
          omega
  · have hpe : processEntries (fun _ => false) 1 [] [] 0
        [.file "a", .file "b", .file "c", .file "d", .file "e"] [] ⟨[], [], 0, 0⟩ =
        .error ⟨[], [], 2, 0, true⟩ := rfl
    have h0 : ¬ (20 : Nat) < 0 := by omega
    have := @walkStack_cons_error (fun _ => false) 20 1 []
      ⟨[], 0, some [.file "a", .file "b", .file "c", .file "d", .file "e"]⟩ [] ⟨[], [], 0, 0⟩
      [.file "a", .file "b", .file "c", .file "d", .file "e"] ⟨[], [], 2, 0, true⟩ h0 rfl hpe
    simp only [scanTree, Option.getD_none, Option.getD_some]
    rw [this]
    exact ⟨rfl, Nat.le_refl 2⟩

/-- C7: a directory whose depth exceeds `maxDepth` is not expanded — the
walk's result does not depend on its children at all, and equals the walk
of the remaining stack; the too-deep directory entry itself was already
counted when its parent was processed (illustrated by the concrete scan:
one directory at depth 1 with three children under `maxDepth = 0` yields
`scannedEntries = 1` and nothing classified). -/
theorem walkStack_deep_not_expanded :
    (∀ (ign : String → Bool) (maxDepth maxEntries : Nat) (root : Path)
      (r : Path) (d : Nat) (cs cs' : Option (List FsNode))
      (stack : List StackItem) (st : WalkSt), maxDepth < d →
      walkStack ign maxDepth maxEntries root (⟨r, d, cs⟩ :: stack) st =
        walkStack ign maxDepth maxEntries root stack st ∧
      walkStack ign maxDepth maxEntries root (⟨r, d, cs⟩ :: stack) st =
        walkStack ign maxDepth maxEntries root (⟨r, d, cs'⟩ :: stack) st) ∧
    scanTree [] (some [.dir "a" (some [.file "x", .file "y", .file "z"])])
      (fun _ => false) { maxDepth := some 0 } = ⟨[], [], 1, 0, false⟩ := by
  constructor
  · intro ign maxDepth maxEntries root r d cs cs' stack st hd
    refine ⟨walkStack_cons_deep hd, ?_⟩
    rw [walkStack_cons_deep hd, walkStack_cons_deep hd]
  · have hpe : processEntries (fun _ => false) 250000 [] [] 0
        [.dir "a" (some [.file "x", .file "y", .file "z"])] [] ⟨[], [], 0, 0⟩ =
        .ok ([⟨["a"], 1, some [.file "x", .file "y", .file "z"]⟩], ⟨[], [], 1, 0⟩) := rfl
    have h0 : ¬ (0 : Nat) < 0 := by omega
    simp only [scanTree, Option.getD_none, Option.getD_some]
    rw [walkStack_cons_ok h0 rfl hpe, walkStack_cons_deep (by omega : (0:Nat) < 1),
      walkStack_nil]

/-- C8: a directory whose read fails (`children = none`, the walker's
`catch { continue }`) is treated exactly as a directory with no children:
the walk continues with the rest of the work stack, and — the walk being a
total Lean function — no exception propagates out of the traversal. -/
theorem walkStack_unreadable_dir_skipped
    (ign : String → Bool) (maxDepth maxEntries : Nat) (root : Path)
    (r : Path) (d : Nat) (stack : List StackItem) (st : WalkSt) :
    walkStack ign maxDepth maxEntries root (⟨r, d, none⟩ :: stack) st =
      walkStack ign maxDepth maxEntries root (⟨r, d, some []⟩ :: stack) st ∧
    walkStack ign maxDepth maxEntries root (⟨r, d, none⟩ :: stack) st =
      walkStack ign maxDepth maxEntries root stack st := by
  have hnone : walkStack ign maxDepth maxEntries root (⟨r, d, none⟩ :: stack) st =
      walkStack ign maxDepth maxEntries root stack st :=
    walkStack_cons_none rfl
  have hempty : walkStack ign maxDepth maxEntries root (⟨r, d, some []⟩ :: stack) st =
      walkStack ign maxDepth maxEntries root stack st := by
    by_cases hd : maxDepth < d
    · exact walkStack_cons_deep hd
    · exact walkStack_cons_ok hd rfl rfl
  exact ⟨hnone.trans hempty.symm, hnone⟩

/-- C10: with an integer budget `maxEntries ≥ 0`, a truncated scan has
`scannedEntries = maxEntries + 1` exactly (the scan returns the first time
the counter exceeds the budget), an untruncated scan has
`scannedEntries ≤ maxEntries`; the entry that triggers truncation is
counted but neither ignore-tested nor classified: the early return's value
is independent of that entry, of the ignore test, and of the rest of the
list, and carries the match lists unchanged. -/
theorem scanTree_truncation_exact :
    (∀ (root : Path) (cs : Option (List FsNode)) (ign : String → Bool) (opts : ScanOpts),
      ((scanTree root cs ign opts).truncated = true →
        (scanTree root cs ign opts).scannedEntries = opts.maxEntries.getD 250000 + 1) ∧
      ((scanTree root cs ign opts).truncated = false →
        (scanTree root cs ign opts).scannedEntries ≤ opts.maxEntries.getD 250000)) ∧
    (∀ (ign : String → Bool) (maxEntries : Nat) (root rdir : Path) (depth : Nat)
      (e : FsNode) (rest : List FsNode) (stack : List StackItem) (st : WalkSt),
      maxEntries < st.scanned + 1 →
      processEntries ign maxEntries root rdir depth (e :: rest) stack st =
        .error ⟨st.compose, st.docker, st.scanned + 1, st.ignored, true⟩) := by
  constructor
  · intro root cs ign opts
    have hinv := walkStack_truncation_inv ign (opts.maxDepth.getD 20)
      (opts.maxEntries.getD 250000) root [⟨[], 0, cs⟩] ⟨[], [], 0, 0⟩ (by simp)
    simp only [scanTree]
    exact hinv
  · intro ign maxEntries root rdir depth e rest stack st hover
    simp only [processEntries]
    rw [if_pos hover]

/-- Witness for `walkStack_deep_not_expanded` at a concrete too-deep item. -/
theorem walkStack_deep_not_expanded_witness :
    walkStack (fun _ => false) 0 250000 [] ([⟨["a"], 1, some [.file "x"]⟩]) ⟨[], [], 1, 0⟩ =
      walkStack (fun _ => false) 0 250000 [] [] ⟨[], [], 1, 0⟩ :=
  ((walkStack_deep_not_expanded).1 (fun _ => false) 0 250000 [] ["a"] 1
    (some [.file "x"]) none [] ⟨[], [], 1, 0⟩ (by decide)).1

/-- Witness for `scanTree_truncation_exact` at a concrete overflowing state. -/
theorem scanTree_truncation_exact_witness :
    processEntries (fun _ => false) 1 [] [] 0 [.file "b"] [] ⟨[], [], 1, 0⟩ =
      .error ⟨[], [], 2, 0, true⟩ :=
  (scanTree_truncation_exact).2 (fun _ => false) 1 [] [] 0 (.file "b") [] [] ⟨[], [], 1, 0⟩
    (by decide)

/-! ### Data model of the grouping stage -/

/-- A matched file record `{ abs, rel }`. -/
structure MatchedFile where
  abs : Path
  rel : String
deriving Repr, DecidableEq

/-- Result of the hints pass for one project: `{parseFailed: true}` or the
three booleans of `computeHintsFromComposeText`. -/
inductive Hints where
  | parseFailed
  | ok (hasHostDockerInternal hasDockerSock hasPrivileged : Bool)
deriving Repr, DecidableEq

/-- A candidate project record. -/
structure Project where
  name : String
  projectDir : Path
  composeFiles : List MatchedFile
  dockerfiles : List MatchedFile
  hints : Option Hints
deriving Repr, DecidableEq

/-- The comparator `(a, b) => a.rel.localeCompare(b.rel)` as the relation
`cmp a b ≤ 0`. -/
def relLe (a b : MatchedFile) : Prop := strLe a.rel b.rel

instance : DecidableRel relLe := fun a b => inferInstanceAs (Decidable (strLe _ _))

instance : IsTotal MatchedFile relLe := ⟨fun a b => le_total a.rel.data b.rel.data⟩

instance : IsTrans MatchedFile relLe :=
  ⟨fun _ _ _ h₁ h₂ => le_trans (α := List Char) h₁ h₂⟩

/-- The project comparator (name first, then `projectDir`, both via
`localeCompare`) as the relation `cmp a b ≤ 0`. -/
def projLe (a b : Project) : Prop :=
  strLt a.name b.name ∨
    (a.name = b.name ∧ strLe (absStr a.projectDir) (absStr b.projectDir))

instance : DecidableRel projLe := fun a b =>
  inferInstanceAs (Decidable (_ ∨ _))

instance : IsTotal Project projLe := by
  refine ⟨fun a b => ?_⟩
  rcases lt_trichotomy a.name.data b.name.data with h | h | h
  · exact Or.inl (Or.inl h)
  · have hname : a.name = b.name := strData_inj h
    rcases le_total (absStr a.projectDir).data (absStr b.projectDir).data with h' | h'
    · exact Or.inl (Or.inr ⟨hname, h'⟩)
    · exact Or.inr (Or.inr ⟨hname.symm, h'⟩)
  · exact Or.inr (Or.inl h)

instance : IsTrans Project projLe := by
  refine ⟨fun a b c hab hbc => ?_⟩
  rcases hab with h₁ | ⟨e₁, l₁⟩
  · rcases hbc with h₂ | ⟨e₂, _⟩
    · exact Or.inl (lt_trans (α := List Char) h₁ h₂)
    · exact Or.inl (e₂ ▸ h₁)
  · rcases hbc with h₂ | ⟨e₂, l₂⟩
    · exact Or.inl (e₁ ▸ h₂)
    · exact Or.inr ⟨e₁.trans e₂, le_trans (α := List Char) l₁ l₂⟩

/-- The length comparator `(a, b) => a.projectDir.length - b.projectDir.length`
(ascending) as `cmp a b ≤ 0`. -/
def dirLenLe (a b : Project) : Prop :=
  strLen (absStr a.projectDir) ≤ strLen (absStr b.projectDir)

instance : DecidableRel dirLenLe := fun a b => inferInstanceAs (Decidable (_ ≤ _))

instance : IsTotal Project dirLenLe := ⟨fun a b => Nat.le_total _ _⟩

instance : IsTrans Project dirLenLe := ⟨fun _ _ _ h₁ h₂ => Nat.le_trans h₁ h₂⟩

/-- The length comparator `(a, b) => b.length - a.length` (descending) on
directory paths as `cmp a b ≤ 0`. -/
def dirLenGe (a b : Path) : Prop := strLen (absStr b) ≤ strLen (absStr a)

instance : DecidableRel dirLenGe := fun a b => inferInstanceAs (Decidable (_ ≤ _))

instance : IsTotal Path dirLenGe := ⟨fun a b => Nat.le_total _ _⟩

instance : IsTrans Path dirLenGe := ⟨fun _ _ _ h₁ h₂ => Nat.le_trans h₂ h₁⟩

/-! ### `groupComposeProjects` -/

/-- One step of `byDir.set(dirAbs, arr)` over the insertion-ordered JS
`Map`: append `f` to the group of `dirAbs`, or add a new group at the
end. -/
def insertByDir (m : List (Path × List Path)) (dirAbs : Path) (f : Path) :
    List (Path × List Path) :=
  match m with
  | [] => [(dirAbs, [f])]
  | (d, fs) :: rest =>
    if d = dirAbs then (d, fs ++ [f]) :: rest else (d, fs) :: insertByDir rest dirAbs f

/-- The `byDir` map of `groupComposeProjects` as an insertion-ordered
association list (`Array.from(byDir.entries())` order). -/
def byDirMap (composeFilesAbs : List Path) : List (Path × List Path) :=
  composeFilesAbs.foldl (fun m f => insertByDir m f.dropLast f) []

/-- Build one project record from a `byDir` group. -/
def mkProject (root : Path) (dirAbs : Path) (files : List Path) : Project :=
  { name := dirAbs.getLastD ""
    projectDir := dirAbs
    composeFiles := List.insertionSort relLe
      (files.map (fun abs => ⟨abs, relStr (relOf root abs)⟩))
    dockerfiles := []
    hints := none }

/-- `groupComposeProjects(rootAbs, composeFilesAbs)`. -/
def groupComposeProjects (root : Path) (composeFilesAbs : List Path) : List Project :=
  List.insertionSort projLe
    ((byDirMap composeFilesAbs).map (fun g => mkProject root g.1 g.2))

/-! ### `collapseChildProjects` -/

/-- The loop test
`p.projectDir === k.projectDir || p.projectDir.startsWith(k.projectDir + path.sep)`:
`k` is an ancestor of `p` or the same directory. -/
def isAncestorOrSelf (k p : Project) : Bool :=
  k.projectDir.isPrefixOf p.projectDir

/-- `collapseChildProjects(projects, includeChildProjects)`. -/
def collapseChildProjects (projects : List Project) (includeChildProjects : Bool) :
    List Project :=
  if includeChildProjects then projects
  else
    let byDirAsc := List.insertionSort dirLenLe projects
    let kept := byDirAsc.foldl
      (fun kept p => if kept.any (fun k => isAncestorOrSelf k p) then kept else kept ++ [p]) []
    List.insertionSort projLe kept

/-! ### `attachDockerfilesToProjects` -/

/-- `projectDirs.find(pd => dfDir === pd || dfDir.startsWith(pd + path.sep))`
over the length-descending list of kept project directories. -/
def attachOwner (sortedDirs : List Path) (dfDir : Path) : Option Path :=
  sortedDirs.find? (fun pd => pd.isPrefixOf dfDir)

/-- The matched-file record `{ abs: df, rel: rel(rootAbs, df) }` pushed for
a dockerfile. -/
def dockerfileMF (root df : Path) : MatchedFile := ⟨df, relStr (relOf root df)⟩

/-- `projects.find(x => x.projectDir === owner)` followed by
`p.dockerfiles.push(mf)`: append `mf` to the first project with directory
`owner` (no change when there is none). -/
def pushDockerfileTo (projects : List Project) (owner : Path) (mf : MatchedFile) :
    List Project :=
  match projects with
  | [] => []
  | p :: ps =>
    if p.projectDir = owner then { p with dockerfiles := p.dockerfiles ++ [mf] } :: ps
    else p :: pushDockerfileTo ps owner mf

/-- `attachDockerfilesToProjects(rootAbs, projects, dockerfilesAbs,
includeChildren)` (functional version of the in-place mutation). -/
def attachDockerfilesToProjects (root : Path) (projects : List Project)
    (dockerfilesAbs : List Path) (includeChildren : Bool) : List Project :=
  if !includeChildren then projects
  else
    let projectDirs := List.insertionSort dirLenGe (projects.map (·.projectDir))
    let attached := dockerfilesAbs.foldl (fun ps df =>
      match attachOwner projectDirs df.dropLast with
      | none => ps
      | some owner => pushDockerfileTo ps owner (dockerfileMF root df)) projects
    attached.map (fun p => { p with dockerfiles := List.insertionSort relLe p.dockerfiles })

/-! ### `readFileBounded`, `computeHintsFromComposeText` and the hints pass -/

/-- `readFileBounded(abs, maxBytes)`: read at most `maxBytes` from the
file, `none` when the read throws (the byte budget is modelled as a
character budget). -/
def readFileBounded (contents : Path → Option String) (abs : Path) (maxBytes : Nat) :
    Option String :=
  (contents abs).map (fun s => ⟨s.data.take maxBytes⟩)

/-- `pat` occurs as a contiguous sublist of `l`. -/
def containsSub (pat : List Char) : List Char → Bool
  | [] => pat.isEmpty
  | c :: rest => pat.isPrefixOf (c :: rest) || containsSub pat rest

/-- Case-insensitive substring test, modelling `/pat/i.test(t)` for a
literal lower-case pattern. -/
def hasSubstrCI (t pat : String) : Bool :=
  containsSub pat.data (strLower t).data

/-- `key` followed by `\s*` and `val` occurs in `l`, modelling the
alternatives of the privileged/host-namespace regex. -/
def matchKeyVal (key val : List Char) : List Char → Bool
  | [] => false
  | c :: rest =>
    (key.isPrefixOf (c :: rest) &&
      val.isPrefixOf (((c :: rest).drop key.length).dropWhile (fun ch => ch.isWhitespace))) ||
    matchKeyVal key val rest

/-- `/(privileged:\s*true|pid:\s*host|ipc:\s*host|network_mode:\s*host)/i`. -/
def privilegedMatch (t : String) : Bool :=
  let l := (strLower t).data
  matchKeyVal "privileged:".data "true".data l ||
  matchKeyVal "pid:".data "host".data l ||
  matchKeyVal "ipc:".data "host".data l ||
  matchKeyVal "network_mode:".data "host".data l

/-- `computeHintsFromComposeText(text)` (`parseFailed: false` plus the
three regex tests). -/
def computeHintsFromComposeText (text : String) : Hints :=
  .ok (hasSubstrCI text "host.docker.internal")
    (hasSubstrCI text "/var/run/docker.sock")
    (privilegedMatch text)

/-- Body of the hints loop of `candidatesCommand` (lines 438–449) for one
project: read the first compose file bounded by 256 KiB and attach hints;
a failed read yields `{parseFailed: true}`; a project without compose
files is skipped (`if (!first) continue`). -/
def hintsStep (contents : Path → Option String) (p : Project) : Project :=
  match p.composeFiles.head? with
  | none => p
  | some first =>
    match readFileBounded contents first.abs (256 * 1024) with
    | some text => { p with hints := some (computeHintsFromComposeText text) }
    | none => { p with hints := some .parseFailed }

/-- The hints pass of `candidatesCommand`: apply `hintsStep` to every
project when `--hints` was requested. -/
def applyHints (contents : Path → Option String) (hints : Bool)
    (projects : List Project) : List Project :=
  if !hints then projects
  else projects.map (hintsStep contents)

/-! ### The `candidatesCommand` pipeline -/

/-- Options of `candidatesCommand` the claims refer to. -/
structure CandidatesOpts where
  includeChildren : Bool := false
  includeChildProjects : Bool := false
  hints : Bool := false
  maxDepth : Option Nat := none
  maxEntries : Option Nat := none

/-- The result object assembled by `candidatesCommand` (rendering
excluded). -/
structure CandidatesResult where
  root : Path
  scannedEntries : Nat
  ignoredEntries : Nat
  truncated : Bool
  count : Nat
  projects : List Project
deriving Repr, DecidableEq

/-- The computational core of `candidatesCommand`: resolve defaults, scan,
group, collapse, attach, hints, and assemble the result object. -/
def candidatesCommand (root : Path) (rootChildren : Option (List FsNode))
    (ign : String → Bool) (contents : Path → Option String)
    (opts : CandidatesOpts) : CandidatesResult :=
  let maxDepth := opts.maxDepth.getD 20
  let maxEntries := opts.maxEntries.getD 250000
  let scan := scanTree root rootChildren ign
    { maxDepth := some maxDepth, maxEntries := some maxEntries }
  let projects0 := groupComposeProjects root scan.composeFiles
  let projects1 := collapseChildProjects projects0 opts.includeChildProjects
  let projects2 := attachDockerfilesToProjects root projects1 scan.dockerfiles
    opts.includeChildren
  let projects := applyHints contents opts.hints projects2
  { root := root
    scannedEntries := scan.scannedEntries
    ignoredEntries := scan.ignoredEntries
    truncated := scan.truncated
    count := projects.length
    projects := projects }

/-! ### CLI defaults (`Formula/podshift.rb`, `candidates` command options) -/

/-- Default supplied by `.option("--max-entries <n>", …, 80000)`. -/
def cliMaxEntriesDefault : Nat := 80000

/-- Default supplied by `.option("--max-depth <n>", …, 18)`. -/
def cliMaxDepthDefault : Nat := 18

/-- C9: a non-CLI caller that omits `maxDepth`/`maxEntries` gets the
internal defaults 20 and 250000 (both in `scanTree` and in
`candidatesCommand`), while the CLI advertises and supplies 18 and 80000 —
the two default sets differ. -/
theorem internal_and_cli_defaults_differ :
    (∀ (root : Path) (cs : Option (List FsNode)) (ign : String → Bool),
      scanTree root cs ign {} =
        walkStack ign 20 250000 root [⟨[], 0, cs⟩] ⟨[], [], 0, 0⟩) ∧
    (∀ (root : Path) (cs : Option (List FsNode)) (ign : String → Bool)
      (contents : Path → Option String) (ic icp h : Bool),
      candidatesCommand root cs ign contents
        { includeChildren := ic, includeChildProjects := icp, hints := h } =
      candidatesCommand root cs ign contents
        { includeChildren := ic, includeChildProjects := icp, hints := h
          maxDepth := some 20, maxEntries := some 250000 }) ∧
    cliMaxDepthDefault = 18 ∧ cliMaxEntriesDefault = 80000 ∧
    cliMaxDepthDefault ≠ 20 ∧ cliMaxEntriesDefault ≠ 250000 := by
  refine ⟨fun root cs ign => rfl, fun root cs ign contents ic icp h => rfl,
    rfl, rfl, by decide, by decide⟩

/-! ### Path length lemmas -/

theorem absStr_cons (s : String) (p : Path) :
    absStr (s :: p) = "/" ++ s ++ absStr p := rfl

theorem strLen_append (a b : String) : strLen (a ++ b) = strLen a + strLen b := by
  simp [strLen, String.data_append]

theorem absStr_append (p q : Path) : absStr (p ++ q) = absStr p ++ absStr q := by
  induction p with
  | nil =>
    simp [absStr]
  | cons s rest ih =>
    simp only [List.cons_append, absStr_cons, ih, String.append_assoc]

theorem one_le_strLen_absStr (q : Path) (h : q ≠ []) : 1 ≤ strLen (absStr q) := by
  cases q with
  | nil => exact absurd rfl h
  | cons s rest =>
    rw [absStr_cons, strLen_append, strLen_append]
    have : strLen "/" = 1 := rfl
    omega

theorem strLen_absStr_lt_of_strict {a b : Path} (hpre : a <+: b) (hne : a ≠ b) :
    strLen (absStr a) < strLen (absStr b) := by
  obtain ⟨t, rfl⟩ := hpre
  have ht : t ≠ [] := by
    intro h
    exact hne (by simp [h])
  rw [absStr_append, strLen_append]
  have := one_le_strLen_absStr t ht
  omega

/-! ### C1: the collapse step leaves no nested pair -/

/-- Directories of `a` and `b` are unrelated by (non-strict) prefix. -/
def NoNest (a b : Project) : Prop :=
  ¬ (a.projectDir <+: b.projectDir) ∧ ¬ (b.projectDir <+: a.projectDir)

theorem noNest_symm : ∀ {a b : Project}, NoNest a b → NoNest b a :=
  fun h => ⟨h.2, h.1⟩

theorem isAncestorOrSelf_iff (k p : Project) :
    isAncestorOrSelf k p = true ↔ k.projectDir <+: p.projectDir := by
  simp [isAncestorOrSelf]

/-- The collapse accumulation loop: invariants carried by `kept` through
the fold over the length-ascending candidate list. -/
theorem collapse_loop_inv :
    ∀ (l kept : List Project),
      List.Pairwise NoNest kept →
      (∀ k ∈ kept, ∀ p ∈ l,
        strLen (absStr k.projectDir) ≤ strLen (absStr p.projectDir)) →
      List.Pairwise dirLenLe l →
      (List.Pairwise NoNest
        (l.foldl (fun kept p =>
          if kept.any (fun k => isAncestorOrSelf k p) then kept else kept ++ [p]) kept) ∧
      (∀ x ∈ l.foldl (fun kept p =>
          if kept.any (fun k => isAncestorOrSelf k p) then kept else kept ++ [p]) kept,
        x ∈ kept ∨ x ∈ l) ∧
      (∀ k ∈ kept, k ∈ l.foldl (fun kept p =>
          if kept.any (fun k => isAncestorOrSelf k p) then kept else kept ++ [p]) kept) ∧
      (∀ p ∈ l, p ∈ l.foldl (fun kept p =>
          if kept.any (fun k => isAncestorOrSelf k p) then kept else kept ++ [p]) kept ∨
        ∃ k ∈ l.foldl (fun kept p =>
          if kept.any (fun k => isAncestorOrSelf k p) then kept else kept ++ [p]) kept,
          k.projectDir <+: p.projectDir ∧
          strLen (absStr k.projectDir) ≤ strLen (absStr p.projectDir))) := by
  intro l
  induction l with
  | nil =>
    intro kept hP _ _
    refine ⟨hP, fun x hx => Or.inl hx, fun k hk => hk, fun p hp => absurd hp (by simp)⟩
  | cons p rest ih =>
    intro kept hP hLen hSorted
    simp only [List.foldl_cons]
    by_cases hany : kept.any (fun k => isAncestorOrSelf k p) = true
    · rw [if_pos hany]
      obtain ⟨k₀, hk₀, hk₀pre⟩ := List.any_eq_true.mp hany
      rw [isAncestorOrSelf_iff] at hk₀pre
      have hrest := ih kept hP
        (fun k hk q hq => hLen k hk q (List.mem_cons_of_mem _ hq))
        (List.Pairwise.sublist (List.sublist_cons_self p rest) hSorted)
      refine ⟨hrest.1, fun x hx => (hrest.2.1 x hx).imp id (List.mem_cons_of_mem p),
        hrest.2.2.1, fun q hq => ?_⟩
      rcases List.mem_cons.mp hq with rfl | hq'
      · exact Or.inr ⟨k₀, hrest.2.2.1 k₀ hk₀,
          hk₀pre, hLen k₀ hk₀ q (List.mem_cons_self q rest)⟩
      · exact hrest.2.2.2 q hq'
    · rw [if_neg hany]
      have hnotpre : ∀ k ∈ kept, ¬ (k.projectDir <+: p.projectDir) := by
        intro k hk hpre
        exact hany (List.any_eq_true.mpr ⟨k, hk, (isAncestorOrSelf_iff k p).mpr hpre⟩)
      have hP' : List.Pairwise NoNest (kept ++ [p]) := by
        rw [List.pairwise_append]
        refine ⟨hP, List.pairwise_singleton _ _, fun k hk q hq => ?_⟩
        rcases List.mem_singleton.mp hq with rfl
        refine ⟨hnotpre k hk, fun hpre => ?_⟩
        by_cases heq : q.projectDir = k.projectDir
        · exact hnotpre k hk (heq ▸ List.prefix_rfl)
        · have hlt := strLen_absStr_lt_of_strict hpre heq
          have hle := hLen k hk q (List.mem_cons_self q rest)
          omega
      have hLen' : ∀ k ∈ kept ++ [p], ∀ q ∈ rest,
          strLen (absStr k.projectDir) ≤ strLen (absStr q.projectDir) := by
        intro k hk q hq
        rcases List.mem_append.mp hk with hk' | hk'
        · exact hLen k hk' q (List.mem_cons_of_mem _ hq)
        · rcases List.mem_singleton.mp hk'
          exact (List.pairwise_cons.mp hSorted).1 q hq
      have hrest := ih (kept ++ [p]) hP' hLen'
        (List.Pairwise.sublist (List.sublist_cons_self p rest) hSorted)
      refine ⟨hrest.1, ?_, ?_, ?_⟩
      · intro x hx
        rcases hrest.2.1 x hx with hx' | hx'
        · rcases List.mem_append.mp hx' with h | h
          · exact Or.inl h
          · exact Or.inr (List.mem_cons.mpr (Or.inl (List.mem_singleton.mp h)))
        · exact Or.inr (List.mem_cons_of_mem _ hx')
      · intro k hk
        exact hrest.2.2.1 k (List.mem_append.mpr (Or.inl hk))
      · intro q hq
        rcases List.mem_cons.mp hq with rfl | hq'
        · exact Or.inl (hrest.2.2.1 q (List.mem_append.mpr (Or.inr (List.mem_singleton.mpr rfl))))
        · exact hrest.2.2.2 q hq'

/-- C1: with collapsing enabled (`includeChildProjects = false`), the list
returned by `collapseChildProjects` contains no pair of projects whose
directories are in a strict path-prefix (ancestor–descendant) relation;
every returned project is one of the candidates, and every dropped
candidate has a kept ancestor (or duplicate) with a no-longer directory —
shallower candidates are preferred. -/
theorem collapseChildProjects_no_nesting (projects : List Project) :
    (List.Pairwise (fun a b =>
      ¬ (a.projectDir <+: b.projectDir ∧ a.projectDir ≠ b.projectDir) ∧
      ¬ (b.projectDir <+: a.projectDir ∧ b.projectDir ≠ a.projectDir))
      (collapseChildProjects projects false)) ∧
    (∀ p ∈ collapseChildProjects projects false, p ∈ projects) ∧
    (∀ p ∈ projects, p ∉ collapseChildProjects projects false →
      ∃ k ∈ collapseChildProjects projects false,
        k.projectDir <+: p.projectDir ∧
        strLen (absStr k.projectDir) ≤ strLen (absStr p.projectDir)) := by
  have hloop := collapse_loop_inv (List.insertionSort dirLenLe projects) []
    (List.Pairwise.nil)
    (by intro k hk; exact absurd hk (by simp))
    (List.sorted_insertionSort dirLenLe projects)
  set kept := (List.insertionSort dirLenLe projects).foldl
    (fun kept p => if kept.any (fun k => isAncestorOrSelf k p) then kept else kept ++ [p]) []
    with hkept
  have hcollapse : collapseChildProjects projects false = List.insertionSort projLe kept := by
    simp [collapseChildProjects, hkept]
  have hperm : List.Perm (List.insertionSort projLe kept) kept :=
    List.perm_insertionSort projLe kept
  have hmemsort : ∀ x, x ∈ List.insertionSort projLe kept ↔ x ∈ kept :=
    fun x => hperm.mem_iff
  have hmemasc : ∀ x, x ∈ List.insertionSort dirLenLe projects ↔ x ∈ projects :=
    fun x => (List.perm_insertionSort dirLenLe projects).mem_iff
  refine ⟨?_, ?_, ?_⟩
  · rw [hcollapse]
    have hPk : List.Pairwise NoNest kept := hloop.1
    have : List.Pairwise NoNest (List.insertionSort projLe kept) :=
      (List.Perm.pairwise_iff (fun h => noNest_symm h) hperm).mpr hPk
    exact this.imp (fun h => ⟨fun hc => h.1 hc.1, fun hc => h.2 hc.1⟩)
  · intro p hp
    rw [hcollapse] at hp
    rcases hloop.2.1 p ((hmemsort p).mp hp) with h | h
    · exact absurd h (by simp)
    · exact (hmemasc p).mp h
  · intro p hp hnot
    rw [hcollapse] at hnot
    rcases hloop.2.2.2 p ((hmemasc p).mpr hp) with h | ⟨k, hk, hpre, hle⟩
    · exact absurd ((hmemsort p).mpr h) hnot
    · exact ⟨k, by rw [hcollapse]; exact (hmemsort k).mpr hk, hpre, hle⟩

/-! ### C4: dockerfile attachment -/

theorem find?_sorted_longest (dfDir : Path) :
    ∀ (l : List Path), List.Pairwise dirLenGe l →
      ∀ d, l.find? (fun pd => pd.isPrefixOf dfDir) = some d →
        d <+: dfDir ∧
        ∀ d' ∈ l, d' <+: dfDir → strLen (absStr d') ≤ strLen (absStr d) := by
  intro l
  induction l with
  | nil =>
    intro _ d h
    simp [List.find?] at h
  | cons x rest ih =>
    intro hP d h
    rw [List.find?] at h
    by_cases hx : x.isPrefixOf dfDir = true
    · rw [hx] at h
      simp only [Option.some.injEq] at h
      subst h
      refine ⟨( List.isPrefixOf_iff_prefix).mp hx, fun d' hd' _ => ?_⟩
      rcases List.mem_cons.mp hd' with rfl | hd''
      · exact Nat.le_refl _
      · exact (List.pairwise_cons.mp hP).1 d' hd''
    · rw [Bool.not_eq_true] at hx
      rw [hx] at h
      have := ih (List.pairwise_cons.mp hP).2 d h
      refine ⟨this.1, fun d' hd' hpre => ?_⟩
      rcases List.mem_cons.mp hd' with rfl | hd''
      · exact absurd (( List.isPrefixOf_iff_prefix).mpr hpre) (by simp [hx])
      · exact this.2 d' hd'' hpre

theorem pushDockerfileTo_dirs (ps : List Project) (o : Path) (mf : MatchedFile) :
    (pushDockerfileTo ps o mf).map (fun p => p.projectDir) =
      ps.map (fun p => p.projectDir) := by
  induction ps with
  | nil => rfl
  | cons p rest ih =>
    rw [pushDockerfileTo]
    by_cases hp : p.projectDir = o
    · rw [if_pos hp]
      simp
    · rw [if_neg hp]
      simp [ih]

theorem pushDockerfileTo_of_nodup (o : Path) (mf : MatchedFile) :
    ∀ (ps : List Project), (ps.map (fun p => p.projectDir)).Nodup →
      pushDockerfileTo ps o mf =
        ps.map (fun p =>
          if p.projectDir = o then { p with dockerfiles := p.dockerfiles ++ [mf] } else p) := by
  intro ps
  induction ps with
  | nil => intro _; rfl
  | cons p rest ih =>
    intro hN
    rw [List.map_cons, List.nodup_cons] at hN
    rw [pushDockerfileTo, List.map_cons]
    by_cases hp : p.projectDir = o
    · rw [if_pos hp, if_pos hp]
      congr 1
      have : ∀ q ∈ rest, ¬ (q.projectDir = o) := by
        intro q hq hqo
        exact hN.1 (List.mem_map.mpr ⟨q, hq, hqo.trans hp.symm⟩)
      rw [List.map_congr_left (fun q hq => if_neg (this q hq))]
      simp
    · rw [if_neg hp, if_neg hp, ih hN.2]

theorem attach_fold (root : Path) (sd : List Path) :
    ∀ (dfs : List Path) (ps : List Project), (ps.map (fun p => p.projectDir)).Nodup →
      dfs.foldl (fun ps df =>
        match attachOwner sd df.dropLast with
        | none => ps
        | some owner => pushDockerfileTo ps owner (dockerfileMF root df)) ps =
      ps.map (fun p => { p with dockerfiles := (p.dockerfiles ++
        (dfs.filter (fun df => attachOwner sd df.dropLast == some p.projectDir)).map
          (dockerfileMF root)) }) := by
  intro dfs
  induction dfs with
  | nil =>
    intro ps _
    simp
  | cons df rest ih =>
    intro ps hN
    rw [List.foldl_cons]
    rcases hOwner : attachOwner sd df.dropLast with _ | o
    · simp only
      rw [ih ps hN]
      refine List.map_congr_left (fun p _ => ?_)
      have hfc : List.filter
          (fun df => attachOwner sd df.dropLast == some p.projectDir) (df :: rest)
          = List.filter
            (fun df => attachOwner sd df.dropLast == some p.projectDir) rest := by
        rw [List.filter_cons]
        simp [hOwner]
      rw [hfc]
    · simp only
      have hdirs : ((pushDockerfileTo ps o (dockerfileMF root df)).map
          (fun p => p.projectDir)).Nodup := by
        rw [pushDockerfileTo_dirs]
        exact hN
      rw [ih _ hdirs, pushDockerfileTo_of_nodup o (dockerfileMF root df) ps hN,
        List.map_map]
      refine List.map_congr_left (fun p _ => ?_)
      simp only [Function.comp]
      by_cases hp : p.projectDir = o
      · have hfc : List.filter
            (fun df => attachOwner sd df.dropLast == some p.projectDir) (df :: rest)
            = df :: List.filter
              (fun df => attachOwner sd df.dropLast == some p.projectDir) rest := by
          rw [List.filter_cons]
          simp [hOwner, hp]
        rw [if_pos hp, hfc]
        simp
      · have hfc : List.filter
            (fun df => attachOwner sd df.dropLast == some p.projectDir) (df :: rest)
            = List.filter
              (fun df => attachOwner sd df.dropLast == some p.projectDir) rest := by
          rw [List.filter_cons]
          simp [hOwner, Ne.symm hp]
        rw [if_neg hp, hfc]

/-- The multiset of dockerfile records assigned by the attachment loop to
the kept project whose directory is `d`. -/
def assignedDockerfiles (root : Path) (dirs : List Path) (dfs : List Path) (d : Path) :
    List MatchedFile :=
  (dfs.filter (fun df =>
    attachOwner (List.insertionSort dirLenGe dirs) df.dropLast == some d)).map
    (dockerfileMF root)

/-- With the opt-in, attachment rewrites each project's dockerfiles to the
sorted list of records assigned to its directory. -/
theorem attach_true_eq (root : Path) (ps : List Project) (dfs : List Path)
    (hNodup : (ps.map (fun p => p.projectDir)).Nodup)
    (hEmpty : ∀ p ∈ ps, p.dockerfiles = []) :
    attachDockerfilesToProjects root ps dfs true =
      ps.map (fun p => { p with dockerfiles := (List.insertionSort relLe
        (assignedDockerfiles root (ps.map (fun p => p.projectDir)) dfs p.projectDir)) }) := by
  have hunfold : attachDockerfilesToProjects root ps dfs true =
      (dfs.foldl (fun acc df =>
        match attachOwner (List.insertionSort dirLenGe (ps.map (fun p => p.projectDir)))
          df.dropLast with
        | none => acc
        | some owner => pushDockerfileTo acc owner (dockerfileMF root df)) ps).map
        (fun p => { p with dockerfiles := (List.insertionSort relLe p.dockerfiles) }) := rfl
  rw [hunfold, attach_fold root _ dfs ps hNodup, List.map_map]
  refine List.map_congr_left (fun p hp => ?_)
  simp only [Function.comp]
  rw [hEmpty p hp]
  rfl

/-- C4: attachment is skipped without the opt-in; with it, each kept
project receives exactly the dockerfiles whose owning directory (the
`find` over the length-descending kept directories) is its own — so every
dockerfile is attached to at most one project, everything else about each
project is unchanged, and a dockerfile whose directory has no kept
ancestor is attached nowhere; the owner, when it exists, is a kept
ancestor directory of maximal length among the kept ancestors. -/
theorem attachDockerfilesToProjects_spec (root : Path) (ps : List Project) (dfs : List Path)
    (hNodup : (ps.map (fun p => p.projectDir)).Nodup)
    (hEmpty : ∀ p ∈ ps, p.dockerfiles = []) :
    (attachDockerfilesToProjects root ps dfs false = ps) ∧
    (attachDockerfilesToProjects root ps dfs true =
      ps.map (fun p => { p with dockerfiles := (List.insertionSort relLe
        (assignedDockerfiles root (ps.map (fun p => p.projectDir)) dfs p.projectDir)) })) ∧
    (∀ df d : Path,
      attachOwner (List.insertionSort dirLenGe (ps.map (fun p => p.projectDir)))
          df.dropLast = some d →
        d ∈ ps.map (fun p => p.projectDir) ∧ d <+: df.dropLast ∧
        ∀ d' ∈ ps.map (fun p => p.projectDir), d' <+: df.dropLast →
          strLen (absStr d') ≤ strLen (absStr d)) ∧
    (∀ df : Path,
      attachOwner (List.insertionSort dirLenGe (ps.map (fun p => p.projectDir)))
          df.dropLast = none →
        ∀ d ∈ ps.map (fun p => p.projectDir), ¬ d <+: df.dropLast) := by
  refine ⟨rfl, attach_true_eq root ps dfs hNodup hEmpty, ?_, ?_⟩
  · intro df d h
    have hsorted : List.Pairwise dirLenGe
        (List.insertionSort dirLenGe (ps.map (fun p => p.projectDir))) :=
      List.sorted_insertionSort dirLenGe _
    have := find?_sorted_longest df.dropLast _ hsorted d h
    refine ⟨?_, this.1, fun d' hd' hpre => this.2 d' ?_ hpre⟩
    · have hmem := List.mem_of_find?_eq_some h
      exact (List.perm_insertionSort dirLenGe _).subset hmem
    · exact ((List.perm_insertionSort dirLenGe _).mem_iff).mpr hd'
  · intro df h d hd hpre
    rw [attachOwner, List.find?_eq_none] at h
    exact h d (((List.perm_insertionSort dirLenGe _).mem_iff).mpr hd)
      (( List.isPrefixOf_iff_prefix).mpr hpre)

/-- Witness for `attachDockerfilesToProjects_spec` on a concrete project
list and dockerfile list. -/
theorem attachDockerfilesToProjects_spec_witness :
    attachDockerfilesToProjects ["r"]
      [⟨"a", ["r", "a"], [], [], none⟩] [["r", "a", "b", "Dockerfile"]] false =
      [⟨"a", ["r", "a"], [], [], none⟩] :=
  (attachDockerfilesToProjects_spec ["r"] [⟨"a", ["r", "a"], [], [], none⟩]
    [["r", "a", "b", "Dockerfile"]] (by simp)
    (by intro p hp; rcases List.mem_singleton.mp hp; rfl)).1

/-! ### C5: the hints pass -/

/-- `hintsStep` touches only the `hints` field. -/
theorem hintsStep_fields (contents : Path → Option String) (p : Project) :
    (hintsStep contents p).name = p.name ∧
    (hintsStep contents p).projectDir = p.projectDir ∧
    (hintsStep contents p).composeFiles = p.composeFiles ∧
    (hintsStep contents p).dockerfiles = p.dockerfiles := by
  rw [hintsStep]
  rcases p.composeFiles.head? with _ | first
  · exact ⟨rfl, rfl, rfl, rfl⟩
  · simp only
    rcases readFileBounded contents first.abs (256 * 1024) with _ | text
    · exact ⟨rfl, rfl, rfl, rfl⟩
    · exact ⟨rfl, rfl, rfl, rfl⟩

/-- C5: when hints are requested the pass maps `hintsStep` over the
projects (and does nothing otherwise); `hintsStep` changes only the
`hints` field; a project with no primary file is left untouched; a failed
read of the first primary file yields `{parseFailed: true}` (never a
thrown error — `hintsStep` is total); and the computed hints depend only
on the first `256 * 1024` bytes of the first primary file in sort order —
two content maps whose bounded reads of that single file agree produce the
same hints. -/
theorem applyHints_spec (contents contents₂ : Path → Option String) (ps : List Project) :
    (applyHints contents false ps = ps) ∧
    (applyHints contents true ps = ps.map (hintsStep contents)) ∧
    (∀ p : Project,
      (hintsStep contents p).name = p.name ∧
      (hintsStep contents p).projectDir = p.projectDir ∧
      (hintsStep contents p).composeFiles = p.composeFiles ∧
      (hintsStep contents p).dockerfiles = p.dockerfiles) ∧
    (∀ p : Project, p.composeFiles.head? = none → hintsStep contents p = p) ∧
    (∀ (p : Project) (first : MatchedFile),
      p.composeFiles.head? = some first → contents first.abs = none →
      (hintsStep contents p).hints = some .parseFailed) ∧
    (∀ (p : Project) (first : MatchedFile),
      p.composeFiles.head? = some first →
      readFileBounded contents first.abs (256 * 1024) =
        readFileBounded contents₂ first.abs (256 * 1024) →
      (hintsStep contents p).hints = (hintsStep contents₂ p).hints) := by
  refine ⟨rfl, rfl, hintsStep_fields contents, ?_, ?_, ?_⟩
  · intro p hnone
    rw [hintsStep, hnone]
  · intro p first hfirst hread
    rw [hintsStep, hfirst]
    simp only
    have : readFileBounded contents first.abs (256 * 1024) = none := by
      rw [readFileBounded, hread]
      rfl
    rw [this]
  · intro p first hfirst hread
    rw [hintsStep, hintsStep, hfirst]
    simp only
    rw [hread]

/-- Witness for `applyHints_spec`: a concrete project whose only compose
file fails to read gets `{parseFailed: true}`. -/
theorem applyHints_spec_witness :
    (hintsStep (fun _ => none)
      ⟨"p", ["r", "p"], [⟨["r", "p", "compose.yml"], "p/compose.yml"⟩], [], none⟩).hints =
      some .parseFailed :=
  (applyHints_spec (fun _ => none) (fun _ => none) []).2.2.2.2.1
    ⟨"p", ["r", "p"], [⟨["r", "p", "compose.yml"], "p/compose.yml"⟩], [], none⟩
    ⟨["r", "p", "compose.yml"], "p/compose.yml"⟩ rfl rfl

/-! ### Step lemmas for evaluating concrete scans -/

theorem processEntries_cons_dir {ign : String → Bool} {maxE : Nat} {root rdir : Path}
    {depth : Nat} {name : String} {cs : Option (List FsNode)} {rest : List FsNode}
    {stack : List StackItem} {st : WalkSt}
    (hbud : ¬ maxE < st.scanned + 1) (hig : ign (relStr (rdir ++ [name]) ++ "/") = false) :
    processEntries ign maxE root rdir depth (.dir name cs :: rest) stack st =
    processEntries ign maxE root rdir depth rest
      (⟨rdir ++ [name], depth + 1, cs⟩ :: stack) { st with scanned := st.scanned + 1 } := by
  simp only [processEntries]
  rw [if_neg hbud, hig]
  rfl

theorem processEntries_cons_file {ign : String → Bool} {maxE : Nat} {root rdir : Path}
    {depth : Nat} {name : String} {rest : List FsNode}
    {stack : List StackItem} {st : WalkSt}
    (hbud : ¬ maxE < st.scanned + 1) (hig : ign (relStr (rdir ++ [name])) = false) :
    processEntries ign maxE root rdir depth (.file name :: rest) stack st =
    processEntries ign maxE root rdir depth rest stack
      { st with
        scanned := st.scanned + 1
        compose := (if isComposeFile name then st.compose ++ [root ++ (rdir ++ [name])]
          else st.compose)
        docker := (if isDockerfile name then st.docker ++ [root ++ (rdir ++ [name])]
          else st.docker) } := by
  simp only [processEntries]
  rw [if_neg hbud, hig]
  rfl

/-- C6: for a root containing exactly the primary files `dirA/compose.yml`
and `dirA/nested/compose.yml` (and an ignore rule set matching none of
them, as the default rules do), the default scan (collapsing on) returns
exactly one project, named `dirA` with directory `<root>/dirA`, while the
same scan with `--include-child-projects` returns exactly the two projects
`dirA` and `nested`. -/
theorem scenario_dirA_nested (root : Path) (ign : String → Bool)
    (h1 : ign "dirA/" = false) (h2 : ign "dirA/compose.yml" = false)
    (h3 : ign "dirA/nested/" = false) (h4 : ign "dirA/nested/compose.yml" = false) :
    (candidatesCommand root
      (some [.dir "dirA" (some [.file "compose.yml",
        .dir "nested" (some [.file "compose.yml"])])]) ign (fun _ => none) {}).projects =
      [⟨"dirA", root ++ ["dirA"],
        [⟨root ++ ["dirA", "compose.yml"], "dirA/compose.yml"⟩], [], none⟩] ∧
    (candidatesCommand root
      (some [.dir "dirA" (some [.file "compose.yml",
        .dir "nested" (some [.file "compose.yml"])])]) ign (fun _ => none)
      { includeChildProjects := true }).projects =
      [⟨"dirA", root ++ ["dirA"],
        [⟨root ++ ["dirA", "compose.yml"], "dirA/compose.yml"⟩], [], none⟩,
       ⟨"nested", root ++ ["dirA", "nested"],
        [⟨root ++ ["dirA", "nested", "compose.yml"], "dirA/nested/compose.yml"⟩], [],
        none⟩] := by
  -- the walk
  have hpe1 : processEntries ign 250000 root [] 0
      [.dir "dirA" (some [.file "compose.yml", .dir "nested" (some [.file "compose.yml"])])]
      [] ⟨[], [], 0, 0⟩ =
      .ok ([⟨["dirA"], 1,
        some [.file "compose.yml", .dir "nested" (some [.file "compose.yml"])]⟩],
        ⟨[], [], 1, 0⟩) := by
    rw [processEntries_cons_dir (by decide) h1]
    rfl
  have hpe2 : processEntries ign 250000 root ["dirA"] 1
      [.file "compose.yml", .dir "nested" (some [.file "compose.yml"])] [] ⟨[], [], 1, 0⟩ =
      .ok ([⟨["dirA", "nested"], 2, some [.file "compose.yml"]⟩],
        ⟨[root ++ ["dirA", "compose.yml"]], [], 3, 0⟩) := by
    rw [processEntries_cons_file (by decide) h2, processEntries_cons_dir (by simp) h3]
    rfl
  have hpe3 : processEntries ign 250000 root ["dirA", "nested"] 2
      [.file "compose.yml"] [] ⟨[root ++ ["dirA", "compose.yml"]], [], 3, 0⟩ =
      .ok ([], ⟨[root ++ ["dirA", "compose.yml"],
        root ++ ["dirA", "nested", "compose.yml"]], [], 4, 0⟩) := by
    rw [processEntries_cons_file (by simp) h4]
    rfl
  have hscan : scanTree root
      (some [.dir "dirA" (some [.file "compose.yml",
        .dir "nested" (some [.file "compose.yml"])])]) ign
      { maxDepth := some 20, maxEntries := some 250000 } =
      ⟨[root ++ ["dirA", "compose.yml"], root ++ ["dirA", "nested", "compose.yml"]],
        [], 4, 0, false⟩ := by
    simp only [scanTree, Option.getD_some]
    rw [walkStack_cons_ok (by decide) rfl hpe1, walkStack_cons_ok (by decide) rfl hpe2,
      walkStack_cons_ok (by decide) rfl hpe3, walkStack_nil]
  -- grouping
  have hA : (root ++ ["dirA", "compose.yml"]).dropLast = root ++ ["dirA"] := by simp
  have hN : (root ++ ["dirA", "nested", "compose.yml"]).dropLast =
      root ++ ["dirA", "nested"] := by simp
  have hne : root ++ ["dirA"] ≠ root ++ ["dirA", "nested"] := by
    simp [List.append_right_inj]
  have hbd : byDirMap [root ++ ["dirA", "compose.yml"],
      root ++ ["dirA", "nested", "compose.yml"]] =
      [(root ++ ["dirA"], [root ++ ["dirA", "compose.yml"]]),
       (root ++ ["dirA", "nested"], [root ++ ["dirA", "nested", "compose.yml"]])] := by
    simp only [byDirMap, List.foldl_cons, List.foldl_nil, hA, hN, insertByDir]
    rw [if_neg hne]
  have hname1 : (root ++ ["dirA"]).getLastD "" = "dirA" := List.getLastD_concat _ _ _
  have hname2 : (root ++ ["dirA", "nested"]).getLastD "" = "nested" := by
    have he : root ++ ["dirA", "nested"] = (root ++ ["dirA"]) ++ ["nested"] := by simp
    rw [he, List.getLastD_concat]
  have hrel1 : relOf root (root ++ ["dirA", "compose.yml"]) = ["dirA", "compose.yml"] := by
    simp [relOf]
  have hrel2 : relOf root (root ++ ["dirA", "nested", "compose.yml"]) =
      ["dirA", "nested", "compose.yml"] := by
    simp [relOf]
  have hmk1 : mkProject root (root ++ ["dirA"]) [root ++ ["dirA", "compose.yml"]] =
      ⟨"dirA", root ++ ["dirA"],
        [⟨root ++ ["dirA", "compose.yml"], "dirA/compose.yml"⟩], [], none⟩ := by
    rw [mkProject]
    simp only [List.map_cons, List.map_nil, hrel1, List.insertionSort, List.orderedInsert]
    rw [hname1]
    rfl
  have hmk2 : mkProject root (root ++ ["dirA", "nested"])
      [root ++ ["dirA", "nested", "compose.yml"]] =
      ⟨"nested", root ++ ["dirA", "nested"],
        [⟨root ++ ["dirA", "nested", "compose.yml"], "dirA/nested/compose.yml"⟩], [],
        none⟩ := by
    rw [mkProject]
    simp only [List.map_cons, List.map_nil, hrel2, List.insertionSort, List.orderedInsert]
    rw [hname2]
    rfl
  have hple : projLe
      ⟨"dirA", root ++ ["dirA"],
        [⟨root ++ ["dirA", "compose.yml"], "dirA/compose.yml"⟩], [], none⟩
      ⟨"nested", root ++ ["dirA", "nested"],
        [⟨root ++ ["dirA", "nested", "compose.yml"], "dirA/nested/compose.yml"⟩], [],
        none⟩ := Or.inl (show strLt "dirA" "nested" by decide)
  have hgroup : groupComposeProjects root [root ++ ["dirA", "compose.yml"],
      root ++ ["dirA", "nested", "compose.yml"]] =
      [⟨"dirA", root ++ ["dirA"],
        [⟨root ++ ["dirA", "compose.yml"], "dirA/compose.yml"⟩], [], none⟩,
       ⟨"nested", root ++ ["dirA", "nested"],
        [⟨root ++ ["dirA", "nested", "compose.yml"], "dirA/nested/compose.yml"⟩], [],
        none⟩] := by
    rw [groupComposeProjects, hbd]
    simp only [List.map_cons, List.map_nil, hmk1, hmk2, List.insertionSort,
      List.orderedInsert]
    rw [if_pos hple]
  -- collapse (default)
  have hanc : isAncestorOrSelf
      ⟨"dirA", root ++ ["dirA"],
        [⟨root ++ ["dirA", "compose.yml"], "dirA/compose.yml"⟩], [], none⟩
      ⟨"nested", root ++ ["dirA", "nested"],
        [⟨root ++ ["dirA", "nested", "compose.yml"], "dirA/nested/compose.yml"⟩], [],
        none⟩ = true :=
    (isAncestorOrSelf_iff _ _).mpr ⟨["nested"], by simp⟩
  have hlenle : dirLenLe
      ⟨"dirA", root ++ ["dirA"],
        [⟨root ++ ["dirA", "compose.yml"], "dirA/compose.yml"⟩], [], none⟩
      ⟨"nested", root ++ ["dirA", "nested"],
        [⟨root ++ ["dirA", "nested", "compose.yml"], "dirA/nested/compose.yml"⟩], [],
        none⟩ := by
    show strLen (absStr (root ++ ["dirA"])) ≤ strLen (absStr (root ++ ["dirA", "nested"]))
    rw [absStr_append, absStr_append, strLen_append, strLen_append]
    have e1 : strLen (absStr ["dirA"]) = 5 := rfl
    have e2 : strLen (absStr ["dirA", "nested"]) = 12 := rfl
    omega
  have hcollapse : collapseChildProjects
      [⟨"dirA", root ++ ["dirA"],
        [⟨root ++ ["dirA", "compose.yml"], "dirA/compose.yml"⟩], [], none⟩,
       ⟨"nested", root ++ ["dirA", "nested"],
        [⟨root ++ ["dirA", "nested", "compose.yml"], "dirA/nested/compose.yml"⟩], [],
        none⟩] false =
      [⟨"dirA", root ++ ["dirA"],
        [⟨root ++ ["dirA", "compose.yml"], "dirA/compose.yml"⟩], [], none⟩] := by
    rw [collapseChildProjects]
    simp only [Bool.false_eq_true, if_false, List.insertionSort, List.orderedInsert]
    rw [if_pos hlenle]
    simp only [List.foldl_cons, List.foldl_nil, Bool.false_eq_true, if_false,
      List.nil_append, List.any_cons, List.any_nil, hanc, Bool.or_false,
      eq_self_iff_true, if_true, List.insertionSort, List.orderedInsert]
  refine ⟨?_, ?_⟩
  · show (candidatesCommand _ _ _ _ _).projects = _
    rw [candidatesCommand]
    simp only [Option.getD_none, hscan, hgroup, hcollapse]
    rfl
  · show (candidatesCommand _ _ _ _ _).projects = _
    rw [candidatesCommand]
    simp only [Option.getD_none, hscan, hgroup]
    rfl

/-- Witness for `scenario_dirA_nested` at a concrete root and the empty
ignore rule set. -/
theorem scenario_dirA_nested_witness :
    (candidatesCommand ["r"]
      (some [.dir "dirA" (some [.file "compose.yml",
        .dir "nested" (some [.file "compose.yml"])])]) (fun _ => false)
      (fun _ => none) {}).projects =
      [⟨"dirA", ["r", "dirA"],
        [⟨["r", "dirA", "compose.yml"], "dirA/compose.yml"⟩], [], none⟩] :=
  (scenario_dirA_nested ["r"] (fun _ => false) rfl rfl rfl rfl).1

/-! ### What an untruncated walk collects (multiset specification) -/

/-- Componentwise concatenation of match-list pairs. -/
def pairApp (a b : List Path × List Path) : List Path × List Path :=
  (a.1 ++ b.1, a.2 ++ b.2)

/-- The (compose, dockerfile) matches an untruncated walk gathers from one
node encountered inside directory `rdir` at depth `depth`. -/
def collectNode (ign : String → Bool) (maxDepth : Nat) (root : Path) :
    Path → Nat → FsNode → List Path × List Path
  | rdir, _, .file name =>
    if ign (relStr (rdir ++ [name])) then ([], [])
    else ((if isComposeFile name then [root ++ (rdir ++ [name])] else []),
          (if isDockerfile name then [root ++ (rdir ++ [name])] else []))
  | _, _, .other _ => ([], [])
  | _, _, .dir _ none => ([], [])
  | rdir, depth, .dir name (some cs) =>
    if ign (relStr (rdir ++ [name]) ++ "/") then ([], [])
    else if maxDepth < depth + 1 then ([], [])
    else (cs.attach.map
      (fun x => collectNode ign maxDepth root (rdir ++ [name]) (depth + 1) x.1)).foldr
        pairApp ([], [])
decreasing_by
  have hm := List.sizeOf_lt_of_mem x.2
  simp only [FsNode.dir.sizeOf_spec, Option.some.sizeOf_spec]
  omega

/-- The matches a pending stack item will contribute. -/
def collectChildren (ign : String → Bool) (maxDepth : Nat) (root : Path)
    (r : Path) (d : Nat) : Option (List FsNode) → List Path × List Path
  | none => ([], [])
  | some es =>
    if maxDepth < d then ([], [])
    else (es.map (collectNode ign maxDepth root r d)).foldr pairApp ([], [])

theorem collectNode_dir_some (ign : String → Bool) (maxDepth : Nat) (root : Path)
    (rdir : Path) (depth : Nat) (name : String) (cs : List FsNode)
    (hig : ign (relStr (rdir ++ [name]) ++ "/") = false) :
    collectNode ign maxDepth root rdir depth (.dir name (some cs)) =
    collectChildren ign maxDepth root (rdir ++ [name]) (depth + 1) (some cs) := by
  rw [collectNode, hig, collectChildren, List.attach_map_val]
  simp

/-- View of a match-list pair as a pair of multisets. -/
def collMS (pr : List Path × List Path) : Multiset Path × Multiset Path :=
  ((pr.1 : Multiset Path), (pr.2 : Multiset Path))

theorem collMS_pairApp (a b : List Path × List Path) :
    collMS (pairApp a b) = collMS a + collMS b := by
  simp [collMS, pairApp, Prod.ext_iff]

/-- Multiset of matches pending on the stack. -/
def stackColl (ign : String → Bool) (maxDepth : Nat) (root : Path)
    (stack : List StackItem) : Multiset Path × Multiset Path :=
  (stack.map (fun it =>
    collMS (collectChildren ign maxDepth root it.dir it.depth it.children))).sum

/-- Multiset of matches contributed by a list of entries at a given place. -/
def entriesColl (ign : String → Bool) (maxDepth : Nat) (root : Path)
    (rdir : Path) (depth : Nat) (es : List FsNode) : Multiset Path × Multiset Path :=
  (es.map (fun e => collMS (collectNode ign maxDepth root rdir depth e))).sum

/-- Multiset view of the accumulated match lists of the walk state. -/
def stColl (st : WalkSt) : Multiset Path × Multiset Path :=
  ((st.compose : Multiset Path), (st.docker : Multiset Path))

theorem entriesColl_eq_foldr (ign : String → Bool) (maxDepth : Nat) (root : Path)
    (rdir : Path) (depth : Nat) (es : List FsNode) :
    entriesColl ign maxDepth root rdir depth es =
    collMS ((es.map (collectNode ign maxDepth root rdir depth)).foldr pairApp ([], [])) := by
  induction es with
  | nil => rfl
  | cons e rest ih =>
    rw [entriesColl, List.map_cons, List.sum_cons, List.map_cons, List.foldr_cons,
      collMS_pairApp, ← ih]
    rfl

theorem collectChildren_deep {ign : String → Bool} {maxDepth : Nat} {root : Path}
    {r : Path} {d : Nat} {cs : Option (List FsNode)} (h : maxDepth < d) :
    collectChildren ign maxDepth root r d cs = ([], []) := by
  cases cs with
  | none => rw [collectChildren]
  | some es => rw [collectChildren, if_pos h]

theorem collectChildren_some {ign : String → Bool} {maxDepth : Nat} {root : Path}
    {r : Path} {d : Nat} {es : List FsNode} (h : ¬ maxDepth < d) :
    collMS (collectChildren ign maxDepth root r d (some es)) =
    entriesColl ign maxDepth root r d es := by
  rw [collectChildren, if_neg h, entriesColl_eq_foldr]

/-- One loop pass moves the entries' pending matches into the state and the
stack. -/
theorem processEntries_coll (ign : String → Bool) (maxDepth maxEntries : Nat)
    (root : Path) (rdir : Path) (depth : Nat) (hdep : ¬ maxDepth < depth) :
    ∀ (entries : List FsNode) (stack : List StackItem) (st : WalkSt)
      (stack' : List StackItem) (st' : WalkSt),
      processEntries ign maxEntries root rdir depth entries stack st = .ok (stack', st') →
      stColl st' + stackColl ign maxDepth root stack' =
        stColl st + entriesColl ign maxDepth root rdir depth entries +
          stackColl ign maxDepth root stack := by
  intro entries
  induction entries with
  | nil =>
    intro stack st stack' st' h
    simp only [processEntries] at h
    cases h
    rw [entriesColl]
    simp only [List.map_nil, List.sum_nil, add_zero]
  | cons e rest ih =>
    intro stack st stack' st' h
    simp only [processEntries] at h
    split at h
    · exact absurd h (by simp)
    · have hecons : entriesColl ign maxDepth root rdir depth (e :: rest) =
          collMS (collectNode ign maxDepth root rdir depth e) +
            entriesColl ign maxDepth root rdir depth rest := by
        rw [entriesColl, List.map_cons, List.sum_cons, entriesColl]
      cases e with
      | dir name cs =>
        simp only at h
        by_cases hig : ign (relStr (rdir ++ [name]) ++ "/") = true
        · rw [if_pos hig] at h
          have := ih _ _ _ _ h
          rw [hecons]
          have hnode : collectNode ign maxDepth root rdir depth (.dir name cs) = ([], []) := by
            cases cs with
            | none => rw [collectNode]
            | some l =>
              rw [collectNode, hig]
              try rfl
          rw [hnode]
          simp only [collMS, Multiset.coe_nil, stColl] at this ⊢
          rw [this]
          abel
        · rw [Bool.not_eq_true] at hig
          rw [if_neg (by simp [hig])] at h
          have := ih _ _ _ _ h
          rw [hecons]
          have hpush : stackColl ign maxDepth root
              (⟨rdir ++ [name], depth + 1, cs⟩ :: stack) =
              collMS (collectChildren ign maxDepth root (rdir ++ [name]) (depth + 1) cs) +
                stackColl ign maxDepth root stack := by
            rw [stackColl, List.map_cons, List.sum_cons, stackColl]
          rw [hpush] at this
          have hnode : collMS (collectNode ign maxDepth root rdir depth (.dir name cs)) =
              collMS (collectChildren ign maxDepth root (rdir ++ [name]) (depth + 1) cs) := by
            cases cs with
            | none => rw [collectNode, collectChildren]
            | some l => rw [collectNode_dir_some ign maxDepth root rdir depth name l hig]
          rw [hnode]
          have hst : stColl ({ st with scanned := st.scanned + 1 }) = stColl st := rfl
          rw [hst] at this
          rw [this]
          abel
      | file name =>
        simp only at h
        by_cases hig : ign (relStr (rdir ++ [name])) = true
        · rw [if_pos hig] at h
          have := ih _ _ _ _ h
          rw [hecons]
          have hnode : collectNode ign maxDepth root rdir depth (.file name) = ([], []) := by
            rw [collectNode, hig]
            rfl
          rw [hnode]
          simp only [collMS, Multiset.coe_nil, stColl] at this ⊢
          rw [this]
          abel
        · rw [Bool.not_eq_true] at hig
          rw [if_neg (by simp [hig])] at h
          have := ih _ _ _ _ h
          rw [hecons]
          have hnode : collectNode ign maxDepth root rdir depth (.file name) =
              ((if isComposeFile name then [root ++ (rdir ++ [name])] else []),
               (if isDockerfile name then [root ++ (rdir ++ [name])] else [])) := by
            rw [collectNode, hig]
            rfl
          rw [hnode]
          have hst : stColl ({ st with
              scanned := st.scanned + 1
              compose := (if isComposeFile name then st.compose ++ [root ++ (rdir ++ [name])]
                else st.compose)
              docker := (if isDockerfile name then st.docker ++ [root ++ (rdir ++ [name])]
                else st.docker) }) =
              stColl st + collMS ((if isComposeFile name then [root ++ (rdir ++ [name])]
                else []),
               (if isDockerfile name then [root ++ (rdir ++ [name])] else [])) := by
            rw [stColl, stColl, collMS]
            simp only
            rcases isComposeFile name <;> rcases isDockerfile name <;>
              simp [Prod.ext_iff, ← Multiset.coe_add]
          rw [hst] at this
          rw [this]
          abel
      | other name =>
        simp only at h
        have := ih _ _ _ _ h
        rw [hecons]
        have hnode : collectNode ign maxDepth root rdir depth (.other name) = ([], []) := by
          rw [collectNode]
        rw [hnode]
        have hst : stColl ({ st with scanned := st.scanned + 1 }) = stColl st := rfl
        rw [hst] at this
        simp only [collMS, Multiset.coe_nil] at this ⊢
        rw [this]
        abel

theorem processEntries_error_truncated (ign : String → Bool) (maxEntries : Nat)
    (root : Path) (rdir : Path) (depth : Nat) :
    ∀ (entries : List FsNode) (stack : List StackItem) (st : WalkSt) (res : ScanResult),
      processEntries ign maxEntries root rdir depth entries stack st = .error res →
      res.truncated = true := by
  intro entries
  induction entries with
  | nil =>
    intro stack st res h
    simp only [processEntries] at h
    exact absurd h (by simp)
  | cons e rest ih =>
    intro stack st res h
    simp only [processEntries] at h
    split at h
    · cases h
      rfl
    · cases e with
      | dir name cs =>
        simp only at h
        split at h <;> exact ih _ _ _ h
      | file name =>
        simp only at h
        split at h <;> exact ih _ _ _ h
      | other name =>
        simp only at h
        exact ih _ _ _ h

/-- Multiset specification of an untruncated walk: the final match lists
are the accumulated ones plus everything pending on the stack. -/
theorem walkStack_coll (ign : String → Bool) (maxDepth maxEntries : Nat) (root : Path) :
    ∀ (stack : List StackItem) (st : WalkSt),
      (walkStack ign maxDepth maxEntries root stack st).truncated = false →
      (((walkStack ign maxDepth maxEntries root stack st).composeFiles : Multiset Path),
       ((walkStack ign maxDepth maxEntries root stack st).dockerfiles : Multiset Path)) =
        stColl st + stackColl ign maxDepth root stack := by
  intro stack st
  induction stack, st using walkStack.induct ign maxDepth maxEntries root with
  | case1 st =>
    intro _
    rw [walkStack_nil]
    simp only [stackColl, List.map_nil, List.sum_nil, add_zero]
    rfl
  | case2 it stack st hd ih =>
    intro htr
    rw [walkStack_cons_deep hd] at htr ⊢
    rw [ih htr]
    have : stackColl ign maxDepth root (it :: stack) =
        collMS (collectChildren ign maxDepth root it.dir it.depth it.children) +
          stackColl ign maxDepth root stack := by
      rw [stackColl, List.map_cons, List.sum_cons, stackColl]
    rw [this, collectChildren_deep hd]
    have : collMS ([], []) = 0 := rfl
    rw [this]
    abel
  | case3 it stack st hd hnone ih =>
    intro htr
    rw [walkStack_cons_none hnone] at htr ⊢
    rw [ih htr]
    have hstk : stackColl ign maxDepth root (it :: stack) =
        collMS (collectChildren ign maxDepth root it.dir it.depth it.children) +
          stackColl ign maxDepth root stack := by
      rw [stackColl, List.map_cons, List.sum_cons, stackColl]
    rw [hstk, hnone]
    have : collMS (collectChildren ign maxDepth root it.dir it.depth none) = 0 := by
      rw [collectChildren]
      rfl
    rw [this]
    abel
  | case4 it stack st hd entries hcs res hpe =>
    intro htr
    rw [walkStack_cons_error hd hcs hpe] at htr
    exact absurd (processEntries_error_truncated ign maxEntries root it.dir it.depth
      entries stack st res hpe) (by rw [htr]; exact Bool.false_ne_true)
  | case5 it stack st hd entries hcs stack' st' hpe ih =>
    intro htr
    rw [walkStack_cons_ok hd hcs hpe] at htr ⊢
    rw [ih htr]
    have hstk : stackColl ign maxDepth root (it :: stack) =
        collMS (collectChildren ign maxDepth root it.dir it.depth it.children) +
          stackColl ign maxDepth root stack := by
      rw [stackColl, List.map_cons, List.sum_cons, stackColl]
    rw [processEntries_coll ign maxDepth maxEntries root it.dir it.depth hd entries
      stack st stack' st' hpe, hstk, hcs, collectChildren_some hd]
    abel

/-- Multiset specification of an untruncated `scanTree` run. -/
theorem scanTree_coll (root : Path) (cs : Option (List FsNode)) (ign : String → Bool)
    (opts : ScanOpts) (htr : (scanTree root cs ign opts).truncated = false) :
    (((scanTree root cs ign opts).composeFiles : Multiset Path),
     ((scanTree root cs ign opts).dockerfiles : Multiset Path)) =
      collMS (collectChildren ign (opts.maxDepth.getD 20) root [] 0 cs) := by
  simp only [scanTree] at htr ⊢
  rw [walkStack_coll ign (opts.maxDepth.getD 20) (opts.maxEntries.getD 250000) root
    [⟨[], 0, cs⟩] ⟨[], [], 0, 0⟩ htr]
  have h0 : stColl ⟨[], [], 0, 0⟩ = 0 := rfl
  rw [h0, stackColl, List.map_cons, List.map_nil, List.sum_cons, List.sum_nil]
  simp only [zero_add, add_zero]

/-! ### Enumeration-order shuffles of a tree -/

/-- Apply a per-directory reordering `σ` (indexed by the directory's
root-relative path) to every directory listing of a tree: the same tree
read with a different directory-enumeration order. -/
def shuffleTree (σ : Path → List FsNode → List FsNode) : Path → FsNode → FsNode
  | _, .file n => .file n
  | _, .other n => .other n
  | _, .dir n none => .dir n none
  | p, .dir n (some cs) =>
    .dir n (some (σ (p ++ [n]) (cs.attach.map (fun x => shuffleTree σ (p ++ [n]) x.1))))
decreasing_by
  have hm := List.sizeOf_lt_of_mem x.2
  simp only [FsNode.dir.sizeOf_spec, Option.some.sizeOf_spec]
  omega

/-- Shuffle the listing of one directory (the scan root included). -/
def shuffleChildren (σ : Path → List FsNode → List FsNode) (p : Path) :
    Option (List FsNode) → Option (List FsNode)
  | none => none
  | some cs => some (σ p (cs.attach.map (fun x => shuffleTree σ p x.1)))

theorem shuffleTree_dir_some (σ : Path → List FsNode → List FsNode) (p : Path)
    (n : String) (cs : List FsNode) :
    shuffleTree σ p (.dir n (some cs)) =
      .dir n (some (σ (p ++ [n]) (cs.map (shuffleTree σ (p ++ [n]))))) := by
  rw [shuffleTree, List.attach_map_val]

theorem shuffleChildren_some (σ : Path → List FsNode → List FsNode) (p : Path)
    (cs : List FsNode) :
    shuffleChildren σ p (some cs) = some (σ p (cs.map (shuffleTree σ p))) := by
  rw [shuffleChildren, List.attach_map_val]

theorem weight_lt_of_mem {e : FsNode} {cs : List FsNode} (h : e ∈ cs) (n : String) :
    e.weight < (FsNode.dir n (some cs)).weight := by
  rw [FsNode.weight_dir_some]
  have : e.weight ≤ nodesWeight cs := by
    rw [nodesWeight]
    exact List.le_sum_of_mem (List.mem_map_of_mem FsNode.weight h)
  omega

/-- Shuffling directory listings does not change the multiset of matches a
node contributes. -/
theorem collectNode_shuffle (σ : Path → List FsNode → List FsNode)
    (hσ : ∀ p cs, List.Perm (σ p cs) cs) (ign : String → Bool) (maxDepth : Nat)
    (root : Path) :
    ∀ (node : FsNode) (rdir : Path) (depth : Nat),
      collMS (collectNode ign maxDepth root rdir depth (shuffleTree σ rdir node)) =
      collMS (collectNode ign maxDepth root rdir depth node) := by
  have main : ∀ (w : Nat) (node : FsNode), node.weight ≤ w → ∀ (rdir : Path) (depth : Nat),
      collMS (collectNode ign maxDepth root rdir depth (shuffleTree σ rdir node)) =
      collMS (collectNode ign maxDepth root rdir depth node) := by
    intro w
    induction w with
    | zero =>
      intro node hle
      have := FsNode.one_le_weight node
      omega
    | succ w ih =>
      intro node hle rdir depth
      cases node with
      | file n => rw [shuffleTree]
      | other n => rw [shuffleTree]
      | dir n cs =>
        cases cs with
        | none => rw [shuffleTree]
        | some l =>
          rw [shuffleTree_dir_some]
          by_cases hig : ign (relStr (rdir ++ [n]) ++ "/") = true
          · rw [collectNode, collectNode, hig]
            rfl
          · rw [Bool.not_eq_true] at hig
            rw [collectNode_dir_some _ _ _ _ _ _ _ hig,
              collectNode_dir_some _ _ _ _ _ _ _ hig]
            by_cases hdeep : maxDepth < depth + 1
            · rw [collectChildren_deep hdeep, collectChildren_deep hdeep]
            · rw [collectChildren_some hdeep, collectChildren_some hdeep]
              have hperm : List.Perm (σ (rdir ++ [n]) (l.map (shuffleTree σ (rdir ++ [n]))))
                  (l.map (shuffleTree σ (rdir ++ [n]))) := hσ _ _
              have h1 : entriesColl ign maxDepth root (rdir ++ [n]) (depth + 1)
                  (σ (rdir ++ [n]) (l.map (shuffleTree σ (rdir ++ [n])))) =
                  entriesColl ign maxDepth root (rdir ++ [n]) (depth + 1)
                    (l.map (shuffleTree σ (rdir ++ [n]))) := by
                rw [entriesColl, entriesColl]
                exact (hperm.map _).sum_eq
              have h2 : entriesColl ign maxDepth root (rdir ++ [n]) (depth + 1)
                  (l.map (shuffleTree σ (rdir ++ [n]))) =
                  entriesColl ign maxDepth root (rdir ++ [n]) (depth + 1) l := by
                rw [entriesColl, entriesColl, List.map_map]
                refine congrArg List.sum (List.map_congr_left (fun e he => ?_))
                simp only [Function.comp]
                refine ih e ?_ (rdir ++ [n]) (depth + 1)
                have := weight_lt_of_mem he n
                have hw : (FsNode.dir n (some l)).weight ≤ w + 1 := hle
                omega
              rw [h1, h2]
  intro node
  exact main node.weight node (Nat.le_refl _)

/-- Shuffling does not change the multiset of matches of a directory
listing (in particular, of the scan root). -/
theorem collectChildren_shuffle (σ : Path → List FsNode → List FsNode)
    (hσ : ∀ p cs, List.Perm (σ p cs) cs) (ign : String → Bool) (maxDepth : Nat)
    (root : Path) (r : Path) (d : Nat) (cs : Option (List FsNode)) :
    collMS (collectChildren ign maxDepth root r d (shuffleChildren σ r cs)) =
    collMS (collectChildren ign maxDepth root r d cs) := by
  cases cs with
  | none => rw [shuffleChildren]
  | some l =>
    rw [shuffleChildren_some]
    by_cases hdeep : maxDepth < d
    · rw [collectChildren_deep hdeep, collectChildren_deep hdeep]
    · rw [collectChildren_some hdeep, collectChildren_some hdeep]
      have hperm : List.Perm (σ r (l.map (shuffleTree σ r))) (l.map (shuffleTree σ r)) :=
        hσ _ _
      have h1 : entriesColl ign maxDepth root r d (σ r (l.map (shuffleTree σ r))) =
          entriesColl ign maxDepth root r d (l.map (shuffleTree σ r)) := by
        rw [entriesColl, entriesColl]
        exact (hperm.map _).sum_eq
      have h2 : entriesColl ign maxDepth root r d (l.map (shuffleTree σ r)) =
          entriesColl ign maxDepth root r d l := by
        rw [entriesColl, entriesColl, List.map_map]
        refine congrArg List.sum (List.map_congr_left (fun e he => ?_))
        simp only [Function.comp]
        exact collectNode_shuffle σ hσ ign maxDepth root e r d
      rw [h1, h2]

/-- An untruncated scan of a shuffled tree produces the same multisets of
compose files and dockerfiles as the scan of the original tree. -/
theorem scanTree_shuffle (root : Path) (cs : Option (List FsNode)) (ign : String → Bool)
    (opts : ScanOpts) (σ : Path → List FsNode → List FsNode)
    (hσ : ∀ p cs, List.Perm (σ p cs) cs)
    (htr : (scanTree root cs ign opts).truncated = false)
    (htr' : (scanTree root (shuffleChildren σ [] cs) ign opts).truncated = false) :
    ((scanTree root (shuffleChildren σ [] cs) ign opts).composeFiles : Multiset Path) =
      ((scanTree root cs ign opts).composeFiles : Multiset Path) ∧
    ((scanTree root (shuffleChildren σ [] cs) ign opts).dockerfiles : Multiset Path) =
      ((scanTree root cs ign opts).dockerfiles : Multiset Path) := by
  have h1 := scanTree_coll root cs ign opts htr
  have h2 := scanTree_coll root (shuffleChildren σ [] cs) ign opts htr'
  have h3 := collectChildren_shuffle σ hσ ign (opts.maxDepth.getD 20) root [] 0 cs
  rw [h3] at h2
  rw [← h1] at h2
  exact ⟨congrArg Prod.fst h2, congrArg Prod.snd h2⟩

/-! ### Valid path segments and injectivity of the string views -/

/-- A directory-entry name as returned by `readdir`: nonempty and free of
the path separator. -/
def ValidSeg (s : String) : Prop := s ≠ "" ∧ ('/' : Char) ∉ s.data

/-- All segments of the path are valid names. -/
def ValidPath (p : Path) : Prop := ∀ s ∈ p, ValidSeg s

theorem charsEat2 : ∀ (a b r₁ r₂ : List Char),
    (∀ c ∈ a, c ≠ '/') → (∀ c ∈ b, c ≠ '/') →
    (r₁ = [] ∨ ∃ t, r₁ = '/' :: t) → (r₂ = [] ∨ ∃ t, r₂ = '/' :: t) →
    a ++ r₁ = b ++ r₂ → a = b ∧ r₁ = r₂ := by
  intro a
  induction a with
  | nil =>
    intro b r₁ r₂ _ hb h₁ _ heq
    cases b with
    | nil => exact ⟨rfl, heq⟩
    | cons c b' =>
      rcases h₁ with rfl | ⟨t, rfl⟩
      · simp at heq
      · simp only [List.nil_append, List.cons_append] at heq
        injection heq with hc _
        exact absurd hc.symm (hb c (List.mem_cons_self c b'))
  | cons c a' iha =>
    intro b r₁ r₂ ha hb h₁ h₂ heq
    cases b with
    | nil =>
      rcases h₂ with rfl | ⟨t, rfl⟩
      · simp at heq
      · simp only [List.cons_append, List.nil_append] at heq
        injection heq with hc _
        exact absurd hc (ha c (List.mem_cons_self c a'))
    | cons d b' =>
      simp only [List.cons_append] at heq
      injection heq with hc htail
      subst hc
      have := iha b' r₁ r₂ (fun x hx => ha x (List.mem_cons_of_mem _ hx))
        (fun x hx => hb x (List.mem_cons_of_mem _ hx)) h₁ h₂ htail
      exact ⟨by rw [this.1], this.2⟩

theorem absStr_data_cons (s : String) (p : Path) :
    (absStr (s :: p)).data = '/' :: (s.data ++ (absStr p).data) := by
  rw [absStr_cons]
  simp [String.data_append]

theorem absStr_data_shape (p : Path) :
    (absStr p).data = [] ∨ ∃ t, (absStr p).data = '/' :: t := by
  cases p with
  | nil => exact Or.inl rfl
  | cons s rest => exact Or.inr ⟨_, absStr_data_cons s rest⟩

theorem absStr_inj : ∀ (p q : Path), ValidPath p → ValidPath q →
    absStr p = absStr q → p = q := by
  intro p
  induction p with
  | nil =>
    intro q _ _ h
    cases q with
    | nil => rfl
    | cons t q' =>
      have hd := congrArg String.data h
      rw [absStr_data_cons] at hd
      exact absurd hd (by simp [absStr])
  | cons s p' ih =>
    intro q hp hq h
    cases q with
    | nil =>
      have hd := congrArg String.data h
      rw [absStr_data_cons] at hd
      exact absurd hd (by simp [absStr])
    | cons t q' =>
      have hd := congrArg String.data h
      rw [absStr_data_cons, absStr_data_cons] at hd
      injection hd with _ htail
      have hs : ∀ c ∈ s.data, c ≠ '/' := by
        intro c hc hceq
        exact (hp s (List.mem_cons_self s p')).2 (hceq ▸ hc)
      have ht : ∀ c ∈ t.data, c ≠ '/' := by
        intro c hc hceq
        exact (hq t (List.mem_cons_self t q')).2 (hceq ▸ hc)
      have := charsEat2 s.data t.data _ _ hs ht (absStr_data_shape p')
        (absStr_data_shape q') htail
      have hst : s = t := strData_inj this.1
      have hpq : p' = q' := ih q' (fun x hx => hp x (List.mem_cons_of_mem _ hx))
        (fun x hx => hq x (List.mem_cons_of_mem _ hx)) (strData_inj this.2)
      rw [hst, hpq]

theorem relStr_data_cons (s : String) (rest : Path) (hne : rest ≠ []) :
    (relStr (s :: rest)).data = s.data ++ '/' :: (relStr rest).data := by
  cases rest with
  | nil => exact absurd rfl hne
  | cons r rs =>
    show (s ++ "/" ++ relStr (r :: rs)).data = _
    simp [String.data_append]

theorem relStr_data_nonempty (p : Path) (hne : p ≠ []) (hv : ValidPath p) :
    (relStr p).data ≠ [] := by
  cases p with
  | nil => exact absurd rfl hne
  | cons s rest =>
    cases rest with
    | nil =>
      intro h
      exact (hv s (List.mem_cons_self s [])).1 (strData_inj h)
    | cons r rs =>
      rw [relStr_data_cons s (r :: rs) (by simp)]
      intro h
      exact absurd h (by simp)

theorem relStr_inj : ∀ (p q : Path), ValidPath p → ValidPath q →
    relStr p = relStr q → p = q := by
  intro p
  induction p with
  | nil =>
    intro q _ hq h
    cases q with
    | nil => rfl
    | cons t q' =>
      have : (relStr (t :: q')).data = [] := by
        rw [← h]
        rfl
      exact absurd this (relStr_data_nonempty (t :: q') (by simp) hq)
  | cons s p' ih =>
    intro q hp hq h
    cases q with
    | nil =>
      have : (relStr (s :: p')).data = [] := by
        rw [h]
        rfl
      exact absurd this (relStr_data_nonempty (s :: p') (by simp) hp)
    | cons t q' =>
      by_cases hpe : p' = []
      · subst hpe
        by_cases hqe : q' = []
        · subst hqe
          rw [relStr, relStr] at h
          rw [h]
        · have hd := congrArg String.data h
          rw [relStr_data_cons t q' hqe] at hd
          have hmem : ('/' : Char) ∈ s.data := by
            rw [show (relStr [s]).data = s.data from rfl] at hd
            rw [hd]
            simp
          exact absurd hmem (hp s (List.mem_cons_self s [])).2
      · by_cases hqe : q' = []
        · subst hqe
          have hd := congrArg String.data h
          rw [relStr_data_cons s p' hpe] at hd
          have hmem : ('/' : Char) ∈ t.data := by
            rw [show (relStr [t]).data = t.data from rfl] at hd
            rw [← hd]
            simp
          exact absurd hmem (hq t (List.mem_cons_self t [])).2
        · have hd := congrArg String.data h
          rw [relStr_data_cons s p' hpe, relStr_data_cons t q' hqe] at hd
          have hs : ∀ c ∈ s.data, c ≠ '/' := by
            intro c hc hceq
            exact (hp s (List.mem_cons_self s p')).2 (hceq ▸ hc)
          have ht : ∀ c ∈ t.data, c ≠ '/' := by
            intro c hc hceq
            exact (hq t (List.mem_cons_self t q')).2 (hceq ▸ hc)
          have := charsEat2 s.data t.data _ _ hs ht (Or.inr ⟨_, rfl⟩) (Or.inr ⟨_, rfl⟩) hd
          have hst : s = t := strData_inj this.1
          have htl : relStr p' = relStr q' := by
            have h2' := this.2
            injection h2' with _ h2
            exact strData_inj h2
          have hpq : p' = q' := ih q' (fun x hx => hp x (List.mem_cons_of_mem _ hx))
            (fun x hx => hq x (List.mem_cons_of_mem _ hx)) htl
          rw [hst, hpq]

/-! ### Equal sorted permutations -/

/-- Two sorted permutations of each other agree, provided the order is
antisymmetric on the elements involved. -/
theorem sorted_perm_eq {α : Type} {r : α → α → Prop} :
    ∀ (l₁ l₂ : List α), List.Perm l₁ l₂ → List.Pairwise r l₁ → List.Pairwise r l₂ →
      (∀ a ∈ l₁, ∀ b ∈ l₁, r a b → r b a → a = b) → l₁ = l₂ := by
  intro l₁
  induction l₁ with
  | nil =>
    intro l₂ hp _ _ _
    exact hp.nil_eq
  | cons a t₁ ih =>
    intro l₂ hp h₁ h₂ hanti
    cases l₂ with
    | nil => exact absurd hp.eq_nil (by simp)
    | cons b t₂ =>
      by_cases hab : a = b
      · subst hab
        rw [ih t₂ hp.cons_inv (List.pairwise_cons.mp h₁).2 (List.pairwise_cons.mp h₂).2
          (fun x hx y hy => hanti x (List.mem_cons_of_mem _ hx) y
            (List.mem_cons_of_mem _ hy))]
      · have haIn : a ∈ t₂ := by
          rcases List.mem_cons.mp (hp.subset (List.mem_cons_self a t₁)) with h | h
          · exact absurd h hab
          · exact h
        have hbIn : b ∈ t₁ := by
          rcases List.mem_cons.mp (hp.symm.subset (List.mem_cons_self b t₂)) with h | h
          · exact absurd h.symm hab
          · exact h
        exact absurd (hanti a (List.mem_cons_self a t₁) b (List.mem_cons_of_mem _ hbIn)
          ((List.pairwise_cons.mp h₁).1 b hbIn)
          ((List.pairwise_cons.mp h₂).1 a haIn)) hab

/-! ### Valid trees and the shape of scanned paths -/

/-- Every name in the tree is a valid directory-entry name. -/
def FsNode.Valid : FsNode → Prop
  | .file n => ValidSeg n
  | .other _ => True
  | .dir n none => ValidSeg n
  | .dir n (some cs) => ValidSeg n ∧ ∀ x : {c // c ∈ cs}, FsNode.Valid x.1
decreasing_by
  have hm := List.sizeOf_lt_of_mem x.2
  simp only [FsNode.dir.sizeOf_spec, Option.some.sizeOf_spec]
  omega

theorem FsNode.valid_dir_some {n : String} {cs : List FsNode} :
    (FsNode.dir n (some cs)).Valid ↔ ValidSeg n ∧ ∀ c ∈ cs, c.Valid := by
  rw [FsNode.Valid]
  exact ⟨fun h => ⟨h.1, fun c hc => h.2 ⟨c, hc⟩⟩, fun h => ⟨h.1, fun x => h.2 x.1 x.2⟩⟩

/-- Validity of one directory listing (used for the scan root). -/
def ChildrenValid : Option (List FsNode) → Prop
  | none => True
  | some cs => ∀ c ∈ cs, c.Valid

theorem mem_foldr_pairApp_fst (l : List (List Path × List Path)) (x : Path) :
    x ∈ (l.foldr pairApp ([], [])).1 ↔ ∃ pr ∈ l, x ∈ pr.1 := by
  induction l with
  | nil => simp
  | cons a rest ih =>
    rw [List.foldr_cons]
    show x ∈ a.1 ++ _ ↔ _
    rw [List.mem_append, ih]
    simp

theorem mem_foldr_pairApp_snd (l : List (List Path × List Path)) (x : Path) :
    x ∈ (l.foldr pairApp ([], [])).2 ↔ ∃ pr ∈ l, x ∈ pr.2 := by
  induction l with
  | nil => simp
  | cons a rest ih =>
    rw [List.foldr_cons]
    show x ∈ a.2 ++ _ ↔ _
    rw [List.mem_append, ih]
    simp

/-- Everything collected under a valid tree is `root ++ r` for a nonempty
valid relative path `r`. -/
theorem collectNode_shape (ign : String → Bool) (maxDepth : Nat) (root : Path) :
    ∀ (node : FsNode) (rdir : Path) (depth : Nat), node.Valid → ValidPath rdir →
      ∀ x, (x ∈ (collectNode ign maxDepth root rdir depth node).1 ∨
            x ∈ (collectNode ign maxDepth root rdir depth node).2) →
        ∃ r, x = root ++ r ∧ r ≠ [] ∧ ValidPath r := by
  have main : ∀ (w : Nat) (node : FsNode), node.weight ≤ w →
      ∀ (rdir : Path) (depth : Nat), node.Valid → ValidPath rdir →
      ∀ x, (x ∈ (collectNode ign maxDepth root rdir depth node).1 ∨
            x ∈ (collectNode ign maxDepth root rdir depth node).2) →
        ∃ r, x = root ++ r ∧ r ≠ [] ∧ ValidPath r := by
    intro w
    induction w with
    | zero =>
      intro node hle
      have := FsNode.one_le_weight node
      omega
    | succ w ih =>
      intro node hle rdir depth hval hrdir x hx
      cases node with
      | file n =>
        rw [collectNode] at hx
        by_cases hns : ign (relStr (rdir ++ [n])) = true
        · rw [if_pos hns] at hx
          rcases hx with hx | hx <;> exact absurd hx (by simp)
        · rw [if_neg hns] at hx
          rw [FsNode.Valid] at hval
          refine ⟨rdir ++ [n], ?_, by simp, ?_⟩
          · have hx' : x ∈ (if isComposeFile n = true then [root ++ (rdir ++ [n])] else []) ∨
                x ∈ (if isDockerfile n = true then [root ++ (rdir ++ [n])] else []) := hx
            rcases hx' with hx' | hx' <;>
            · split at hx'
              · rcases List.mem_singleton.mp hx'
                rfl
              · exact absurd hx' (by simp)
          · intro s hs
            rcases List.mem_append.mp hs with hs | hs
            · exact hrdir s hs
            · rcases List.mem_singleton.mp hs
              exact hval
      | other n =>
        rw [collectNode] at hx
        rcases hx with hx | hx <;> exact absurd hx (by simp)
      | dir n cs =>
        cases cs with
        | none =>
          rw [collectNode] at hx
          rcases hx with hx | hx <;> exact absurd hx (by simp)
        | some l =>
          rcases hig : ign (relStr (rdir ++ [n]) ++ "/") with _ | _
          · rw [collectNode_dir_some ign maxDepth root rdir depth n l hig] at hx
            by_cases hdeep : maxDepth < depth + 1
            · rw [collectChildren_deep hdeep] at hx
              rcases hx with hx | hx <;> exact absurd hx (by simp)
            · rw [collectChildren, if_neg hdeep] at hx
              have hval' := FsNode.valid_dir_some.mp hval
              rcases hx with hx | hx
              · rcases (mem_foldr_pairApp_fst _ x).mp hx with ⟨pr, hpr, hxpr⟩
                rcases List.mem_map.mp hpr with ⟨c, hc, rfl⟩
                refine ih c ?_ (rdir ++ [n]) (depth + 1) (hval'.2 c hc) ?_ x (Or.inl hxpr)
                · have := weight_lt_of_mem hc n
                  have hw : (FsNode.dir n (some l)).weight ≤ w + 1 := hle
                  omega
                · intro s hs
                  rcases List.mem_append.mp hs with hs | hs
                  · exact hrdir s hs
                  · rcases List.mem_singleton.mp hs
                    exact hval'.1
              · rcases (mem_foldr_pairApp_snd _ x).mp hx with ⟨pr, hpr, hxpr⟩
                rcases List.mem_map.mp hpr with ⟨c, hc, rfl⟩
                refine ih c ?_ (rdir ++ [n]) (depth + 1) (hval'.2 c hc) ?_ x (Or.inr hxpr)
                · have := weight_lt_of_mem hc n
                  have hw : (FsNode.dir n (some l)).weight ≤ w + 1 := hle
                  omega
                · intro s hs
                  rcases List.mem_append.mp hs with hs | hs
                  · exact hrdir s hs
                  · rcases List.mem_singleton.mp hs
                    exact hval'.1
          · rw [collectNode, hig] at hx
            rcases hx with hx | hx <;> exact absurd hx (by simp)
  intro node rdir depth hval hrdir x hx
  exact main node.weight node (Nat.le_refl _) rdir depth hval hrdir x hx

/-- Shape of the match lists of an untruncated scan of a valid tree. -/
theorem scanTree_shape (root : Path) (cs : Option (List FsNode)) (ign : String → Bool)
    (opts : ScanOpts) (hval : ChildrenValid cs)
    (htr : (scanTree root cs ign opts).truncated = false) :
    ∀ x, (x ∈ (scanTree root cs ign opts).composeFiles ∨
          x ∈ (scanTree root cs ign opts).dockerfiles) →
      ∃ r, x = root ++ r ∧ r ≠ [] ∧ ValidPath r := by
  intro x hx
  have hcoll := scanTree_coll root cs ign opts htr
  have hx' : (x ∈ (collectChildren ign (opts.maxDepth.getD 20) root [] 0 cs).1 ∨
      x ∈ (collectChildren ign (opts.maxDepth.getD 20) root [] 0 cs).2) := by
    rcases hx with hx | hx
    · left
      have h1 := congrArg Prod.fst hcoll
      simp only [collMS] at h1
      rw [← Multiset.mem_coe, h1] at hx
      exact Multiset.mem_coe.mp hx
    · right
      have h1 := congrArg Prod.snd hcoll
      simp only [collMS] at h1
      rw [← Multiset.mem_coe, h1] at hx
      exact Multiset.mem_coe.mp hx
  cases cs with
  | none =>
    rw [collectChildren] at hx'
    rcases hx' with hx' | hx' <;> exact absurd hx' (by simp)
  | some l =>
    by_cases hdeep : (opts.maxDepth.getD 20) < 0
    · exact absurd hdeep (by omega)
    · rw [collectChildren, if_neg hdeep] at hx'
      rcases hx' with hx' | hx'
      · rcases (mem_foldr_pairApp_fst _ x).mp hx' with ⟨pr, hpr, hxpr⟩
        rcases List.mem_map.mp hpr with ⟨c, hc, rfl⟩
        exact collectNode_shape ign _ root c [] 0 (hval c hc) (by intro s hs; simp at hs)
          x (Or.inl hxpr)
      · rcases (mem_foldr_pairApp_snd _ x).mp hx' with ⟨pr, hpr, hxpr⟩
        rcases List.mem_map.mp hpr with ⟨c, hc, rfl⟩
        exact collectNode_shape ign _ root c [] 0 (hval c hc) (by intro s hs; simp at hs)
          x (Or.inr hxpr)

/-! ### Characterisation of the `byDir` map -/

/-- The files of `l` lying directly in directory `d`. -/
def filesOfDir (d : Path) (l : List Path) : List Path :=
  l.filter (fun x => decide (x.dropLast = d))

theorem insertByDir_keys (m : List (Path × List Path)) (d : Path) (f : Path) :
    (insertByDir m d f).map Prod.fst =
      if d ∈ m.map Prod.fst then m.map Prod.fst else m.map Prod.fst ++ [d] := by
  induction m with
  | nil => simp [insertByDir]
  | cons a rest ih =>
    obtain ⟨d₀, fs₀⟩ := a
    rw [insertByDir]
    by_cases hd : d₀ = d
    · subst hd
      rw [if_pos rfl, if_pos (by simp)]
      simp
    · rw [if_neg hd]
      by_cases hm : d ∈ rest.map Prod.fst
      · rw [if_pos (by simp [hm])]
        simp only [List.map_cons, ih, if_pos hm]
      · rw [if_neg (by
          intro h
          rcases List.mem_cons.mp h with h | h
          · exact hd h.symm
          · exact hm h)]
        simp only [List.map_cons, ih, if_neg hm]
        simp

theorem insertByDir_entry {m : List (Path × List Path)} {d : Path} {f : Path}
    (hN : (m.map Prod.fst).Nodup) {d' : Path} {fs' : List Path}
    (h : (d', fs') ∈ insertByDir m d f) :
    (d' ≠ d ∧ (d', fs') ∈ m) ∨
    (d' = d ∧ ∃ fs₀, (d, fs₀) ∈ m ∧ fs' = fs₀ ++ [f]) ∨
    (d' = d ∧ d ∉ m.map Prod.fst ∧ fs' = [f]) := by
  induction m with
  | nil =>
    rw [insertByDir] at h
    have h' := List.mem_singleton.mp h
    have hd' : d' = d := congrArg Prod.fst h'
    have hfs : fs' = [f] := congrArg Prod.snd h'
    exact Or.inr (Or.inr ⟨hd', by simp, hfs⟩)
  | cons a rest ih =>
    obtain ⟨d₀, fs₀⟩ := a
    rw [insertByDir] at h
    simp only [List.map_cons, List.nodup_cons] at hN
    by_cases hd : d₀ = d
    · rw [if_pos hd] at h
      rcases List.mem_cons.mp h with h | h
      · have hd' : d' = d₀ := congrArg Prod.fst h
        have hfs : fs' = fs₀ ++ [f] := congrArg Prod.snd h
        refine Or.inr (Or.inl ⟨hd'.trans hd, fs₀, ?_, hfs⟩)
        rw [← hd]
        exact List.mem_cons.mpr (Or.inl rfl)
      · left
        refine ⟨?_, List.mem_cons_of_mem _ h⟩
        intro hdd
        exact hN.1 ((hdd.trans hd.symm) ▸ List.mem_map.mpr ⟨(d', fs'), h, rfl⟩)
    · rw [if_neg hd] at h
      rcases List.mem_cons.mp h with h | h
      · have hd' : d' = d₀ := congrArg Prod.fst h
        exact Or.inl ⟨fun hdd => hd (hd'.symm.trans hdd), List.mem_cons.mpr (Or.inl h)⟩
      · rcases ih hN.2 h with h' | h' | h'
        · exact Or.inl ⟨h'.1, List.mem_cons_of_mem _ h'.2⟩
        · obtain ⟨hdd, fs₁, hmem, hfs⟩ := h'
          exact Or.inr (Or.inl ⟨hdd, fs₁, List.mem_cons_of_mem _ hmem, hfs⟩)
        · refine Or.inr (Or.inr ⟨h'.1, ?_, h'.2.2⟩)
          intro hmem
          rcases List.mem_cons.mp hmem with hmem | hmem
          · exact hd hmem.symm
          · exact h'.2.1 hmem

theorem byDirFold_spec :
    ∀ (l : List Path) (m : List (Path × List Path)) (done : List Path),
      (m.map Prod.fst).Nodup →
      (∀ g ∈ m, g.2 = filesOfDir g.1 done) →
      (∀ d, d ∈ m.map Prod.fst ↔ d ∈ done.map List.dropLast) →
      ((l.foldl (fun m f => insertByDir m f.dropLast f) m).map Prod.fst).Nodup ∧
      (∀ g ∈ l.foldl (fun m f => insertByDir m f.dropLast f) m,
        g.2 = filesOfDir g.1 (done ++ l)) ∧
      (∀ d, d ∈ (l.foldl (fun m f => insertByDir m f.dropLast f) m).map Prod.fst ↔
        d ∈ (done ++ l).map List.dropLast) := by
  intro l
  induction l with
  | nil =>
    intro m done h1 h2 h3
    exact ⟨h1, by simpa using h2, by simpa using h3⟩
  | cons f rest ih =>
    intro m done h1 h2 h3
    have hkeys := insertByDir_keys m f.dropLast f
    have h1' : ((insertByDir m f.dropLast f).map Prod.fst).Nodup := by
      rw [hkeys]
      by_cases hm : f.dropLast ∈ m.map Prod.fst
      · rw [if_pos hm]
        exact h1
      · rw [if_neg hm]
        refine List.Nodup.append h1 (List.nodup_singleton _) ?_
        intro a ha hb
        rcases List.mem_singleton.mp hb
        exact hm ha
    have h2' : ∀ g ∈ insertByDir m f.dropLast f, g.2 = filesOfDir g.1 (done ++ [f]) := by
      intro g hg
      obtain ⟨d', fs'⟩ := g
      rcases insertByDir_entry h1 hg with h' | h' | h'
      · show fs' = filesOfDir d' (done ++ [f])
        rw [filesOfDir, List.filter_append]
        have hne : ¬ f.dropLast = d' := fun hc => h'.1 hc.symm
        have hnil : List.filter (fun x => decide (x.dropLast = d')) [f] = [] := by
          simp [hne]
        rw [hnil, List.append_nil]
        exact h2 (d', fs') h'.2
      · obtain ⟨hdd, fs₀, hmem, hfs⟩ := h'
        show fs' = filesOfDir d' (done ++ [f])
        rw [filesOfDir, List.filter_append, hfs]
        have hsing : List.filter (fun x => decide (x.dropLast = d')) [f] = [f] := by
          simp [hdd]
        rw [hsing]
        subst hdd
        exact congrArg (fun t => t ++ [f]) (h2 (f.dropLast, fs₀) hmem)
      · obtain ⟨hdd, hnm, hfs⟩ := h'
        show fs' = filesOfDir d' (done ++ [f])
        have hdone : f.dropLast ∉ done.map List.dropLast :=
          fun hc => hnm ((h3 f.dropLast).mpr hc)
        rw [filesOfDir, List.filter_append, hfs]
        have hnil : List.filter (fun x => decide (x.dropLast = d')) done = [] := by
          rw [List.filter_eq_nil_iff]
          intro a ha hpa
          have h4 : a.dropLast = f.dropLast := (of_decide_eq_true hpa).trans hdd
          exact hdone (h4 ▸ List.mem_map.mpr ⟨a, ha, rfl⟩)
        rw [hnil, List.nil_append]
        simp [hdd]
    have h3' : ∀ d, d ∈ (insertByDir m f.dropLast f).map Prod.fst ↔
        d ∈ (done ++ [f]).map List.dropLast := by
      intro d
      rw [hkeys]
      by_cases hm : f.dropLast ∈ m.map Prod.fst
      · rw [if_pos hm, List.map_append, List.mem_append]
        constructor
        · intro h
          exact Or.inl ((h3 d).mp h)
        · intro h
          rcases h with h | h
          · exact (h3 d).mpr h
          · rcases List.mem_singleton.mp h
            exact hm
      · rw [if_neg hm, List.map_append, List.mem_append, List.mem_append]
        constructor
        · intro h
          rcases h with h | h
          · exact Or.inl ((h3 d).mp h)
          · exact Or.inr h
        · intro h
          rcases h with h | h
          · exact Or.inl ((h3 d).mpr h)
          · exact Or.inr h
    have hres := ih (insertByDir m f.dropLast f) (done ++ [f]) h1' h2' h3'
    rw [List.foldl_cons]
    rw [show done ++ f :: rest = (done ++ [f]) ++ rest by simp]
    exact hres

theorem byDirMap_nodup (l : List Path) : ((byDirMap l).map Prod.fst).Nodup := by
  show ((l.foldl (fun m f => insertByDir m f.dropLast f) []).map Prod.fst).Nodup
  exact (byDirFold_spec l [] [] (by simp) (by simp) (by simp)).1

theorem byDirMap_values (l : List Path) :
    ∀ g ∈ byDirMap l, g.2 = filesOfDir g.1 l := by
  show ∀ g ∈ l.foldl (fun m f => insertByDir m f.dropLast f) [], g.2 = filesOfDir g.1 l
  have h := (byDirFold_spec l [] [] (by simp) (by simp) (by simp)).2.1
  simpa using h

theorem byDirMap_keys (l : List Path) (d : Path) :
    d ∈ (byDirMap l).map Prod.fst ↔ d ∈ l.map List.dropLast := by
  show d ∈ (l.foldl (fun m f => insertByDir m f.dropLast f) []).map Prod.fst ↔ _
  have h := (byDirFold_spec l [] [] (by simp) (by simp) (by simp)).2.2
  simpa using h d

/-! ### `groupComposeProjects` is enumeration-order independent -/

theorem relOf_append (root r : Path) : relOf root (root ++ r) = r := by
  rw [relOf]
  exact List.drop_left root r

theorem dropLast_append_ne (l r : List String) (h : r ≠ []) :
    (l ++ r).dropLast = l ++ r.dropLast := by
  rcases List.eq_nil_or_concat r with rfl | ⟨rs, x, rfl⟩
  · exact absurd rfl h
  · rw [List.concat_eq_append, ← List.append_assoc, List.dropLast_concat, List.dropLast_concat]

/-- Any directory holding a scanned file is itself a valid path. -/
theorem keys_valid (root : Path) {l : List Path}
    (hroot : ValidPath root)
    (hshape : ∀ f ∈ l, ∃ r, f = root ++ r ∧ r ≠ [] ∧ ValidPath r)
    {d : Path} (hd : d ∈ l.map List.dropLast) : ValidPath d := by
  rcases List.mem_map.mp hd with ⟨f, hf, rfl⟩
  rcases hshape f hf with ⟨r, rfl, hne, hv⟩
  rw [dropLast_append_ne root r hne]
  intro s hs
  rcases List.mem_append.mp hs with hs | hs
  · exact hroot s hs
  · exact hv s ((List.dropLast_sublist r).subset hs)

/-- Two projects with valid directories that compare `≤` both ways share a
directory. -/
theorem projLe_antisymm {a b : Project}
    (hva : ValidPath a.projectDir) (hvb : ValidPath b.projectDir)
    (hab : projLe a b) (hba : projLe b a) : a.projectDir = b.projectDir := by
  have hab' : strLt a.name b.name ∨
      (a.name = b.name ∧ strLe (absStr a.projectDir) (absStr b.projectDir)) := hab
  have hba' : strLt b.name a.name ∨
      (b.name = a.name ∧ strLe (absStr b.projectDir) (absStr a.projectDir)) := hba
  have hle1 : strLe (absStr a.projectDir) (absStr b.projectDir) := by
    rcases hab' with h | h
    · rcases hba' with h' | h'
      · have h1 : a.name.data < b.name.data := h
        have h2 : b.name.data < a.name.data := h'
        exact absurd (h1.trans h2) (lt_irrefl _)
      · have h1 : a.name.data < b.name.data := h
        rw [h'.1] at h1
        exact absurd h1 (lt_irrefl _)
    · exact h.2
  have hle2 : strLe (absStr b.projectDir) (absStr a.projectDir) := by
    rcases hba' with h | h
    · rcases hab' with h' | h'
      · have h1 : b.name.data < a.name.data := h
        have h2 : a.name.data < b.name.data := h'
        exact absurd (h1.trans h2) (lt_irrefl _)
      · have h1 : b.name.data < a.name.data := h
        rw [h'.1] at h1
        exact absurd h1 (lt_irrefl _)
    · exact h.2
  have h1 : (absStr a.projectDir).data ≤ (absStr b.projectDir).data := hle1
  have h2 : (absStr b.projectDir).data ≤ (absStr a.projectDir).data := hle2
  exact absStr_inj _ _ hva hvb (strData_inj (le_antisymm h1 h2))

/-- Project records of a group depend only on the file multiset. -/
theorem mkProject_perm_eq (root d : Path) {files₁ files₂ : List Path}
    (hperm : List.Perm files₁ files₂)
    (hshape : ∀ f ∈ files₁, ∃ r, f = root ++ r ∧ r ≠ [] ∧ ValidPath r) :
    mkProject root d files₁ = mkProject root d files₂ := by
  have hmapperm : List.Perm
      (files₁.map (fun abs => (⟨abs, relStr (relOf root abs)⟩ : MatchedFile)))
      (files₂.map (fun abs => (⟨abs, relStr (relOf root abs)⟩ : MatchedFile))) :=
    hperm.map _
  have hanti : ∀ a ∈ List.insertionSort relLe
        (files₁.map (fun abs => (⟨abs, relStr (relOf root abs)⟩ : MatchedFile))),
      ∀ b ∈ List.insertionSort relLe
        (files₁.map (fun abs => (⟨abs, relStr (relOf root abs)⟩ : MatchedFile))),
      relLe a b → relLe b a → a = b := by
    intro a ha b hb hab hba
    have ha' := (List.perm_insertionSort relLe _).mem_iff.mp ha
    have hb' := (List.perm_insertionSort relLe _).mem_iff.mp hb
    rcases List.mem_map.mp ha' with ⟨f₁, hf₁, rfl⟩
    rcases List.mem_map.mp hb' with ⟨f₂, hf₂, rfl⟩
    rcases hshape f₁ hf₁ with ⟨r₁, hfr₁, hne₁, hv₁⟩
    rcases hshape f₂ hf₂ with ⟨r₂, hfr₂, hne₂, hv₂⟩
    have hab' : (relStr (relOf root f₁)).data ≤ (relStr (relOf root f₂)).data := hab
    have hba' : (relStr (relOf root f₂)).data ≤ (relStr (relOf root f₁)).data := hba
    have hrel : relStr (relOf root f₁) = relStr (relOf root f₂) :=
      strData_inj (le_antisymm hab' hba')
    have hf : f₁ = f₂ := by
      rw [hfr₁, hfr₂]
      rw [hfr₁, hfr₂, relOf_append, relOf_append] at hrel
      rw [relStr_inj r₁ r₂ hv₁ hv₂ hrel]
    rw [hf]
  have hs₁ := List.sorted_insertionSort relLe
    (files₁.map (fun abs => (⟨abs, relStr (relOf root abs)⟩ : MatchedFile)))
  have hs₂ := List.sorted_insertionSort relLe
    (files₂.map (fun abs => (⟨abs, relStr (relOf root abs)⟩ : MatchedFile)))
  have hps := (List.perm_insertionSort relLe
      (files₁.map (fun abs => (⟨abs, relStr (relOf root abs)⟩ : MatchedFile)))).trans
    (hmapperm.trans (List.perm_insertionSort relLe
      (files₂.map (fun abs => (⟨abs, relStr (relOf root abs)⟩ : MatchedFile)))).symm)
  have hfield := sorted_perm_eq _ _ hps hs₁ hs₂ hanti
  simp only [mkProject]
  rw [hfield]

theorem byDirMap_map_mk (root : Path) (l : List Path) :
    (byDirMap l).map (fun g => mkProject root g.1 g.2) =
      ((byDirMap l).map Prod.fst).map (fun d => mkProject root d (filesOfDir d l)) := by
  rw [List.map_map]
  refine List.map_congr_left ?_
  intro g hg
  show mkProject root g.1 g.2 = mkProject root g.1 (filesOfDir g.1 l)
  rw [byDirMap_values l g hg]

theorem byDirMap_keys_perm {l₁ l₂ : List Path} (hperm : List.Perm l₁ l₂) :
    List.Perm ((byDirMap l₁).map Prod.fst) ((byDirMap l₂).map Prod.fst) := by
  rw [List.perm_ext_iff_of_nodup (byDirMap_nodup l₁) (byDirMap_nodup l₂)]
  intro d
  rw [byDirMap_keys, byDirMap_keys]
  exact (hperm.map List.dropLast).mem_iff

/-- Grouping is invariant under permutation of its input list. -/
theorem groupComposeProjects_perm_eq (root : Path) {l₁ l₂ : List Path}
    (hperm : List.Perm l₁ l₂) (hroot : ValidPath root)
    (hshape₁ : ∀ f ∈ l₁, ∃ r, f = root ++ r ∧ r ≠ [] ∧ ValidPath r) :
    groupComposeProjects root l₁ = groupComposeProjects root l₂ := by
  have hGeq : ∀ d, mkProject root d (filesOfDir d l₁) = mkProject root d (filesOfDir d l₂) := by
    intro d
    refine mkProject_perm_eq root d (hperm.filter _) ?_
    intro f hf
    exact hshape₁ f (List.mem_of_mem_filter hf)
  have hP : List.Perm ((byDirMap l₁).map (fun g => mkProject root g.1 g.2))
      ((byDirMap l₂).map (fun g => mkProject root g.1 g.2)) := by
    rw [byDirMap_map_mk root l₁, byDirMap_map_mk root l₂]
    have h12 : ((byDirMap l₁).map Prod.fst).map (fun d => mkProject root d (filesOfDir d l₁)) =
        ((byDirMap l₁).map Prod.fst).map (fun d => mkProject root d (filesOfDir d l₂)) :=
      List.map_congr_left (fun d _ => hGeq d)
    rw [h12]
    exact (byDirMap_keys_perm hperm).map _
  have hanti : ∀ a ∈ List.insertionSort projLe
        ((byDirMap l₁).map (fun g => mkProject root g.1 g.2)),
      ∀ b ∈ List.insertionSort projLe
        ((byDirMap l₁).map (fun g => mkProject root g.1 g.2)),
      projLe a b → projLe b a → a = b := by
    intro a ha b hb hab hba
    have ha' := (List.perm_insertionSort projLe _).mem_iff.mp ha
    have hb' := (List.perm_insertionSort projLe _).mem_iff.mp hb
    rcases List.mem_map.mp ha' with ⟨ga, hga, rfl⟩
    rcases List.mem_map.mp hb' with ⟨gb, hgb, rfl⟩
    have hva : ValidPath ga.1 := keys_valid root hroot hshape₁
      ((byDirMap_keys l₁ ga.1).mp (List.mem_map.mpr ⟨ga, hga, rfl⟩))
    have hvb : ValidPath gb.1 := keys_valid root hroot hshape₁
      ((byDirMap_keys l₁ gb.1).mp (List.mem_map.mpr ⟨gb, hgb, rfl⟩))
    have hkey : ga.1 = gb.1 := projLe_antisymm hva hvb hab hba
    rw [byDirMap_values l₁ ga hga, byDirMap_values l₁ gb hgb, hkey]
  have hs₁ := List.sorted_insertionSort projLe
    ((byDirMap l₁).map (fun g => mkProject root g.1 g.2))
  have hs₂ := List.sorted_insertionSort projLe
    ((byDirMap l₂).map (fun g => mkProject root g.1 g.2))
  have hps := (List.perm_insertionSort projLe
      ((byDirMap l₁).map (fun g => mkProject root g.1 g.2))).trans
    (hP.trans (List.perm_insertionSort projLe
      ((byDirMap l₂).map (fun g => mkProject root g.1 g.2))).symm)
  exact sorted_perm_eq _ _ hps hs₁ hs₂ hanti

/-! ### Order and field facts carried through the pipeline -/

theorem group_sorted (root : Path) (l : List Path) :
    List.Pairwise projLe (groupComposeProjects root l) :=
  List.sorted_insertionSort projLe _

theorem group_mem (root : Path) (l : List Path) {p : Project}
    (hp : p ∈ groupComposeProjects root l) :
    ∃ g ∈ byDirMap l, p = mkProject root g.1 g.2 := by
  have hp' := (List.perm_insertionSort projLe
    ((byDirMap l).map (fun g => mkProject root g.1 g.2))).mem_iff.mp hp
  rcases List.mem_map.mp hp' with ⟨g, hg, rfl⟩
  exact ⟨g, hg, rfl⟩

theorem group_composeFiles_sorted (root : Path) (l : List Path) :
    ∀ p ∈ groupComposeProjects root l, List.Pairwise relLe p.composeFiles := by
  intro p hp
  rcases group_mem root l hp with ⟨g, hg, rfl⟩
  exact List.sorted_insertionSort relLe _

theorem group_dockerfiles_empty (root : Path) (l : List Path) :
    ∀ p ∈ groupComposeProjects root l, p.dockerfiles = [] := by
  intro p hp
  rcases group_mem root l hp with ⟨g, hg, rfl⟩
  rfl

theorem group_dirs_nodup (root : Path) (l : List Path) :
    ((groupComposeProjects root l).map (fun p => p.projectDir)).Nodup := by
  have hperm : List.Perm
      ((groupComposeProjects root l).map (fun p => p.projectDir))
      (((byDirMap l).map (fun g => mkProject root g.1 g.2)).map (fun p => p.projectDir)) :=
    (List.perm_insertionSort projLe _).map _
  rw [List.Perm.nodup_iff hperm, List.map_map]
  have hcomp : ((fun p : Project => p.projectDir) ∘
      (fun g : Path × List Path => mkProject root g.1 g.2)) = Prod.fst := rfl
  rw [hcomp]
  exact byDirMap_nodup l

theorem collapse_mem {ps : List Project} {b : Bool} {p : Project}
    (hp : p ∈ collapseChildProjects ps b) : p ∈ ps := by
  cases b with
  | true => exact hp
  | false =>
    have hinv := collapse_loop_inv (List.insertionSort dirLenLe ps) []
      List.Pairwise.nil (by intro k hk; exact absurd hk (by simp))
      (List.sorted_insertionSort dirLenLe ps)
    have hp' := (List.perm_insertionSort projLe _).mem_iff.mp hp
    rcases hinv.2.1 p hp' with h | h
    · exact absurd h (by simp)
    · exact (List.perm_insertionSort dirLenLe ps).subset h

theorem collapse_sorted (ps : List Project) (b : Bool)
    (hs : List.Pairwise projLe ps) :
    List.Pairwise projLe (collapseChildProjects ps b) := by
  cases b with
  | true => exact hs
  | false => exact List.sorted_insertionSort projLe _

theorem collapse_dirs_nodup (ps : List Project) (b : Bool)
    (hN : (ps.map (fun p => p.projectDir)).Nodup) :
    ((collapseChildProjects ps b).map (fun p => p.projectDir)).Nodup := by
  cases b with
  | true => exact hN
  | false =>
    have hinv := collapse_loop_inv (List.insertionSort dirLenLe ps) []
      List.Pairwise.nil (by intro k hk; exact absurd hk (by simp))
      (List.sorted_insertionSort dirLenLe ps)
    have hne : List.Pairwise
        (fun a b : Project => a.projectDir ≠ b.projectDir)
        ((List.insertionSort dirLenLe ps).foldl
          (fun kept p => if kept.any (fun k => isAncestorOrSelf k p) then kept
            else kept ++ [p]) []) :=
      hinv.1.imp (fun h => by
        intro hc
        exact h.1 (by rw [hc]))
    have hkN : (((List.insertionSort dirLenLe ps).foldl
        (fun kept p => if kept.any (fun k => isAncestorOrSelf k p) then kept
          else kept ++ [p]) []).map (fun p => p.projectDir)).Nodup := by
      show List.Pairwise (fun a b => a ≠ b) _
      rw [List.pairwise_map]
      exact hne
    exact (List.Perm.nodup_iff
      ((List.perm_insertionSort projLe _).map (fun p => p.projectDir))).mpr hkN

theorem collapse_dockerfiles_empty (ps : List Project) (b : Bool)
    (hE : ∀ p ∈ ps, p.dockerfiles = []) :
    ∀ p ∈ collapseChildProjects ps b, p.dockerfiles = [] :=
  fun p hp => hE p (collapse_mem hp)

theorem pairwise_projLe_map {f : Project → Project}
    (hf : ∀ p, (f p).name = p.name ∧ (f p).projectDir = p.projectDir)
    {ps : List Project} (h : List.Pairwise projLe ps) :
    List.Pairwise projLe (ps.map f) := by
  rw [List.pairwise_map]
  refine h.imp ?_
  intro a b hab
  show strLt (f a).name (f b).name ∨
    ((f a).name = (f b).name ∧ strLe (absStr (f a).projectDir) (absStr (f b).projectDir))
  rw [(hf a).1, (hf b).1, (hf a).2, (hf b).2]
  exact hab

/-- The attach pass preserves the pairwise project order. -/
theorem attach_sorted (root : Path) (ps : List Project) (dfs : List Path) (b : Bool)
    (hN : (ps.map (fun p => p.projectDir)).Nodup)
    (hE : ∀ p ∈ ps, p.dockerfiles = [])
    (hs : List.Pairwise projLe ps) :
    List.Pairwise projLe (attachDockerfilesToProjects root ps dfs b) := by
  cases b with
  | false => exact hs
  | true =>
    rw [attach_true_eq root ps dfs hN hE]
    exact @pairwise_projLe_map
      (fun p => { p with dockerfiles := (List.insertionSort relLe
        (assignedDockerfiles root (ps.map (fun p => p.projectDir)) dfs p.projectDir)) })
      (fun p => ⟨rfl, rfl⟩) ps hs

/-- The attach pass does not change `composeFiles`. -/
theorem attach_composeFiles (root : Path) (ps : List Project) (dfs : List Path) (b : Bool)
    (hN : (ps.map (fun p => p.projectDir)).Nodup)
    (hE : ∀ p ∈ ps, p.dockerfiles = []) :
    ∀ q ∈ attachDockerfilesToProjects root ps dfs b, ∃ p ∈ ps,
      q.composeFiles = p.composeFiles := by
  cases b with
  | false => exact fun q hq => ⟨q, hq, rfl⟩
  | true =>
    rw [attach_true_eq root ps dfs hN hE]
    intro q hq
    rcases List.mem_map.mp hq with ⟨p, hp, rfl⟩
    exact ⟨p, hp, rfl⟩

/-- The hints pass preserves the pairwise project order. -/
theorem applyHints_sorted (contents : Path → Option String) (b : Bool)
    (ps : List Project) (hs : List.Pairwise projLe ps) :
    List.Pairwise projLe (applyHints contents b ps) := by
  cases b with
  | false => exact hs
  | true =>
    show List.Pairwise projLe (ps.map (hintsStep contents))
    exact pairwise_projLe_map (fun p =>
      ⟨(hintsStep_fields contents p).1, (hintsStep_fields contents p).2.1⟩) hs

/-- The hints pass does not change `composeFiles`. -/
theorem applyHints_composeFiles (contents : Path → Option String) (b : Bool)
    (ps : List Project) :
    ∀ q ∈ applyHints contents b ps, ∃ p ∈ ps, q.composeFiles = p.composeFiles := by
  cases b with
  | false => exact fun q hq => ⟨q, hq, rfl⟩
  | true =>
    intro q hq
    have hq' : q ∈ ps.map (hintsStep contents) := hq
    rcases List.mem_map.mp hq' with ⟨p, hp, rfl⟩
    exact ⟨p, hp, (hintsStep_fields contents p).2.2.1⟩

/-! ### Determinism of the attach stage and validity under shuffles -/

/-- The attach pass depends only on the multiset of dockerfiles. -/
theorem attach_perm_eq (root : Path) (ps : List Project) {dfs₁ dfs₂ : List Path}
    (hperm : List.Perm dfs₁ dfs₂) (b : Bool)
    (hN : (ps.map (fun p => p.projectDir)).Nodup)
    (hE : ∀ p ∈ ps, p.dockerfiles = [])
    (hshape : ∀ f ∈ dfs₁, ∃ r, f = root ++ r ∧ r ≠ [] ∧ ValidPath r) :
    attachDockerfilesToProjects root ps dfs₁ b =
    attachDockerfilesToProjects root ps dfs₂ b := by
  cases b with
  | false => rfl
  | true =>
    rw [attach_true_eq root ps dfs₁ hN hE, attach_true_eq root ps dfs₂ hN hE]
    refine List.map_congr_left (fun p hp => ?_)
    have hassign : List.Perm
        (assignedDockerfiles root (ps.map (fun p => p.projectDir)) dfs₁ p.projectDir)
        (assignedDockerfiles root (ps.map (fun p => p.projectDir)) dfs₂ p.projectDir) :=
      (hperm.filter _).map _
    have hanti : ∀ a ∈ List.insertionSort relLe
        (assignedDockerfiles root (ps.map (fun p => p.projectDir)) dfs₁ p.projectDir),
        ∀ b ∈ List.insertionSort relLe
          (assignedDockerfiles root (ps.map (fun p => p.projectDir)) dfs₁ p.projectDir),
        relLe a b → relLe b a → a = b := by
      intro a ha b hb hab hba
      have ha' := (List.perm_insertionSort relLe _).mem_iff.mp ha
      have hb' := (List.perm_insertionSort relLe _).mem_iff.mp hb
      rcases List.mem_map.mp ha' with ⟨f₁, hf₁, rfl⟩
      rcases List.mem_map.mp hb' with ⟨f₂, hf₂, rfl⟩
      rcases hshape f₁ (List.mem_of_mem_filter hf₁) with ⟨r₁, hfr₁, hne₁, hv₁⟩
      rcases hshape f₂ (List.mem_of_mem_filter hf₂) with ⟨r₂, hfr₂, hne₂, hv₂⟩
      have hab' : (relStr (relOf root f₁)).data ≤ (relStr (relOf root f₂)).data := hab
      have hba' : (relStr (relOf root f₂)).data ≤ (relStr (relOf root f₁)).data := hba
      have hrel : relStr (relOf root f₁) = relStr (relOf root f₂) :=
        strData_inj (le_antisymm hab' hba')
      have hf : f₁ = f₂ := by
        rw [hfr₁, hfr₂]
        rw [hfr₁, hfr₂, relOf_append, relOf_append] at hrel
        rw [relStr_inj r₁ r₂ hv₁ hv₂ hrel]
      rw [hf]
    have hs₁ := List.sorted_insertionSort relLe
      (assignedDockerfiles root (ps.map (fun p => p.projectDir)) dfs₁ p.projectDir)
    have hs₂ := List.sorted_insertionSort relLe
      (assignedDockerfiles root (ps.map (fun p => p.projectDir)) dfs₂ p.projectDir)
    have hps := (List.perm_insertionSort relLe
        (assignedDockerfiles root (ps.map (fun p => p.projectDir)) dfs₁ p.projectDir)).trans
      (hassign.trans (List.perm_insertionSort relLe
        (assignedDockerfiles root (ps.map (fun p => p.projectDir)) dfs₂ p.projectDir)).symm)
    rw [sorted_perm_eq _ _ hps hs₁ hs₂ hanti]

/-- Shuffling directory listings preserves tree validity. -/
theorem shuffleTree_valid (σ : Path → List FsNode → List FsNode)
    (hσ : ∀ p l, List.Perm (σ p l) l) :
    ∀ (node : FsNode) (p : Path), node.Valid → (shuffleTree σ p node).Valid := by
  have main : ∀ (w : Nat) (node : FsNode), node.weight ≤ w →
      ∀ (p : Path), node.Valid → (shuffleTree σ p node).Valid := by
    intro w
    induction w with
    | zero =>
      intro node hle
      have := FsNode.one_le_weight node
      omega
    | succ w ih =>
      intro node hle p hval
      cases node with
      | file n =>
        rw [shuffleTree]
        exact hval
      | other n =>
        rw [shuffleTree]
        exact hval
      | dir n cs =>
        cases cs with
        | none =>
          rw [shuffleTree]
          exact hval
        | some l =>
          rw [shuffleTree_dir_some]
          rw [FsNode.valid_dir_some] at hval ⊢
          refine ⟨hval.1, ?_⟩
          intro c hc
          have hc' := (hσ (p ++ [n]) (l.map (shuffleTree σ (p ++ [n])))).mem_iff.mp hc
          rcases List.mem_map.mp hc' with ⟨c₀, hc₀, rfl⟩
          refine ih c₀ ?_ (p ++ [n]) (hval.2 c₀ hc₀)
          have hlt := weight_lt_of_mem hc₀ n
          have hw : (FsNode.dir n (some l)).weight ≤ w + 1 := hle
          omega
  intro node p hval
  exact main node.weight node (Nat.le_refl _) p hval

theorem shuffleChildren_valid (σ : Path → List FsNode → List FsNode)
    (hσ : ∀ p l, List.Perm (σ p l) l) (p : Path) (cs : Option (List FsNode))
    (hval : ChildrenValid cs) : ChildrenValid (shuffleChildren σ p cs) := by
  cases cs with
  | none => exact hval
  | some l =>
    rw [shuffleChildren_some]
    intro c hc
    have hc' := (hσ p (l.map (shuffleTree σ p))).mem_iff.mp hc
    rcases List.mem_map.mp hc' with ⟨c₀, hc₀, rfl⟩
    exact shuffleTree_valid σ hσ c₀ p (hval c₀ hc₀)

/-! ### Projections of `candidatesCommand` -/

theorem candidatesCommand_projects (root : Path) (cs : Option (List FsNode))
    (ign : String → Bool) (contents : Path → Option String) (opts : CandidatesOpts) :
    (candidatesCommand root cs ign contents opts).projects =
      applyHints contents opts.hints
        (attachDockerfilesToProjects root
          (collapseChildProjects
            (groupComposeProjects root
              (scanTree root cs ign
                { maxDepth := some (opts.maxDepth.getD 20)
                  maxEntries := some (opts.maxEntries.getD 250000) }).composeFiles)
            opts.includeChildProjects)
          (scanTree root cs ign
            { maxDepth := some (opts.maxDepth.getD 20)
              maxEntries := some (opts.maxEntries.getD 250000) }).dockerfiles
          opts.includeChildren) := rfl

theorem candidatesCommand_truncated (root : Path) (cs : Option (List FsNode))
    (ign : String → Bool) (contents : Path → Option String) (opts : CandidatesOpts) :
    (candidatesCommand root cs ign contents opts).truncated =
      (scanTree root cs ign
        { maxDepth := some (opts.maxDepth.getD 20)
          maxEntries := some (opts.maxEntries.getD 250000) }).truncated := rfl

/-- The scan of a root whose listing is empty. -/
theorem scanTree_emptyDir (root : Path) (ign : String → Bool) :
    scanTree root (some []) ign
      { maxDepth := some 20
        maxEntries := some 250000 } =
      { composeFiles := []
        dockerfiles := []
        scannedEntries := 0
        ignoredEntries := 0
        truncated := false } := by
  show walkStack ign 20 250000 root [⟨[], 0, some []⟩] ⟨[], [], 0, 0⟩ = _
  rw [@walkStack_cons_ok ign 20 250000 root ⟨[], 0, some []⟩ [] ⟨[], [], 0, 0⟩ []
    [] ⟨[], [], 0, 0⟩ (by decide) rfl rfl]
  rw [walkStack_nil]

/-! ### C3: output order and enumeration-order independence -/

/-- The group–collapse–attach–hints pipeline depends only on the multisets
of compose files and dockerfiles. -/
theorem pipeline_eq (root : Path) (contents : Path → Option String)
    (icp ic hnt : Bool) {c₁ c₂ d₁ d₂ : List Path}
    (hpc : List.Perm c₁ c₂) (hpd : List.Perm d₁ d₂)
    (hroot : ValidPath root)
    (hshapeC : ∀ f ∈ c₁, ∃ r, f = root ++ r ∧ r ≠ [] ∧ ValidPath r)
    (hshapeD : ∀ f ∈ d₁, ∃ r, f = root ++ r ∧ r ≠ [] ∧ ValidPath r) :
    applyHints contents hnt (attachDockerfilesToProjects root
      (collapseChildProjects (groupComposeProjects root c₁) icp) d₁ ic) =
    applyHints contents hnt (attachDockerfilesToProjects root
      (collapseChildProjects (groupComposeProjects root c₂) icp) d₂ ic) := by
  rw [groupComposeProjects_perm_eq root hpc hroot hshapeC]
  rw [attach_perm_eq root (collapseChildProjects (groupComposeProjects root c₂) icp) hpd ic
    (collapse_dirs_nodup (groupComposeProjects root c₂) icp (group_dirs_nodup root c₂))
    (collapse_dockerfiles_empty (groupComposeProjects root c₂) icp
      (group_dockerfiles_empty root c₂))
    hshapeD]

/-- C3: the project list returned by `candidatesCommand` is always pairwise
ordered by `(name, projectDirectory)` and every project's compose list is
pairwise ordered by relative path; and when the scan completes without
truncation on a valid tree, the project list is identical under every
permutation `σ` of every directory's enumeration order.  (The spec's
unconditional "identical regardless of enumeration order" does not hold
for truncated scans — see `candidates_truncated_order_dependent`.) -/
theorem candidates_order_and_determinism
    (root : Path) (cs : Option (List FsNode)) (ign : String → Bool)
    (contents : Path → Option String) (opts : CandidatesOpts)
    (σ : Path → List FsNode → List FsNode) :
    List.Pairwise projLe (candidatesCommand root cs ign contents opts).projects ∧
    (∀ p ∈ (candidatesCommand root cs ign contents opts).projects,
      List.Pairwise relLe p.composeFiles) ∧
    ((∀ p l, List.Perm (σ p l) l) → ValidPath root → ChildrenValid cs →
      (candidatesCommand root cs ign contents opts).truncated = false →
      (candidatesCommand root (shuffleChildren σ [] cs) ign contents opts).truncated = false →
      (candidatesCommand root (shuffleChildren σ [] cs) ign contents opts).projects =
        (candidatesCommand root cs ign contents opts).projects) := by
  refine ⟨?_, ?_, ?_⟩
  · rw [candidatesCommand_projects]
    apply applyHints_sorted
    apply attach_sorted
    · exact collapse_dirs_nodup _ _ (group_dirs_nodup _ _)
    · exact collapse_dockerfiles_empty _ _ (group_dockerfiles_empty _ _)
    · exact collapse_sorted _ _ (group_sorted _ _)
  · rw [candidatesCommand_projects]
    intro p hp
    rcases applyHints_composeFiles contents opts.hints _ p hp with ⟨q, hq, hpq⟩
    rcases attach_composeFiles root _ _ opts.includeChildren
      (collapse_dirs_nodup _ _ (group_dirs_nodup _ _))
      (collapse_dockerfiles_empty _ _ (group_dockerfiles_empty _ _)) q hq with ⟨r', hr', hqr⟩
    rw [hpq, hqr]
    exact group_composeFiles_sorted _ _ r' (collapse_mem hr')
  · intro hσ hroot hval htr htr'
    rw [candidatesCommand_truncated] at htr htr'
    rw [candidatesCommand_projects, candidatesCommand_projects]
    have hms := scanTree_shuffle root cs ign
      { maxDepth := some (opts.maxDepth.getD 20)
        maxEntries := some (opts.maxEntries.getD 250000) } σ hσ htr htr'
    have hval' := shuffleChildren_valid σ hσ [] cs hval
    have hshape₂ := scanTree_shape root (shuffleChildren σ [] cs) ign
      { maxDepth := some (opts.maxDepth.getD 20)
        maxEntries := some (opts.maxEntries.getD 250000) } hval' htr'
    exact pipeline_eq root contents opts.includeChildProjects opts.includeChildren opts.hints
      (Multiset.coe_eq_coe.mp hms.1) (Multiset.coe_eq_coe.mp hms.2) hroot
      (fun f hf => hshape₂ f (Or.inl hf)) (fun f hf => hshape₂ f (Or.inr hf))

/-- Witness for `candidates_order_and_determinism` on a concrete root with
an empty (hence untruncated) listing and the reversing shuffle. -/
theorem candidates_order_and_determinism_witness :
    List.Pairwise projLe
      (candidatesCommand ["r"] (some []) (fun _ => false) (fun _ => none) {}).projects ∧
    (candidatesCommand ["r"] (shuffleChildren (fun _ l => l.reverse) [] (some []))
        (fun _ => false) (fun _ => none) {}).projects =
      (candidatesCommand ["r"] (some []) (fun _ => false) (fun _ => none) {}).projects := by
  have h := candidates_order_and_determinism ["r"] (some []) (fun _ => false)
    (fun _ => none) {} (fun _ l => l.reverse)
  refine ⟨h.1, h.2.2 (fun p l => List.reverse_perm l) ?_ ?_ ?_ ?_⟩
  · intro s hs
    rcases List.mem_singleton.mp hs
    exact ⟨by decide, by decide⟩
  · intro c hc
    exact absurd hc (by simp)
  · exact congrArg ScanResult.truncated (scanTree_emptyDir ["r"] (fun _ => false))
  · exact congrArg ScanResult.truncated (scanTree_emptyDir ["r"] (fun _ => false))

/-- C3 counterexample: a truncated scan (`maxEntries = 1` against a root
holding two compose files) keeps whichever file is enumerated first, so
reversing the enumeration order changes the returned project list even
though the tree and the options are unchanged. -/
theorem candidates_truncated_order_dependent :
    (∀ (p : Path) (l : List FsNode),
      List.Perm ((fun (_ : Path) (l : List FsNode) => l.reverse) p l) l) ∧
    (candidatesCommand ["r"]
        (some [FsNode.file "compose.yml", FsNode.file "docker-compose.yml"])
        (fun _ => false) (fun _ => none) { maxEntries := some 1 }).truncated = true ∧
    (candidatesCommand ["r"]
        (shuffleChildren (fun _ l => l.reverse) []
          (some [FsNode.file "compose.yml", FsNode.file "docker-compose.yml"]))
        (fun _ => false) (fun _ => none) { maxEntries := some 1 }).projects ≠
      (candidatesCommand ["r"]
        (some [FsNode.file "compose.yml", FsNode.file "docker-compose.yml"])
        (fun _ => false) (fun _ => none) { maxEntries := some 1 }).projects := by
  have hscan₁ : scanTree ["r"]
      (some [FsNode.file "compose.yml", FsNode.file "docker-compose.yml"])
      (fun _ => false)
      { maxDepth := some 20
        maxEntries := some 1 } =
      { composeFiles := [["r", "compose.yml"]]
        dockerfiles := []
        scannedEntries := 2
        ignoredEntries := 0
        truncated := true } := by
    show walkStack (fun _ => false) 20 1 ["r"]
      [⟨[], 0, some [FsNode.file "compose.yml", FsNode.file "docker-compose.yml"]⟩]
      ⟨[], [], 0, 0⟩ = _
    exact @walkStack_cons_error (fun _ => false) 20 1 ["r"]
      ⟨[], 0, some [FsNode.file "compose.yml", FsNode.file "docker-compose.yml"]⟩
      [] ⟨[], [], 0, 0⟩
      [FsNode.file "compose.yml", FsNode.file "docker-compose.yml"]
      ⟨[["r", "compose.yml"]], [], 2, 0, true⟩ (by decide) rfl rfl
  have hscan₂ : scanTree ["r"]
      (some [FsNode.file "docker-compose.yml", FsNode.file "compose.yml"])
      (fun _ => false)
      { maxDepth := some 20
        maxEntries := some 1 } =
      { composeFiles := [["r", "docker-compose.yml"]]
        dockerfiles := []
        scannedEntries := 2
        ignoredEntries := 0
        truncated := true } := by
    show walkStack (fun _ => false) 20 1 ["r"]
      [⟨[], 0, some [FsNode.file "docker-compose.yml", FsNode.file "compose.yml"]⟩]
      ⟨[], [], 0, 0⟩ = _
    exact @walkStack_cons_error (fun _ => false) 20 1 ["r"]
      ⟨[], 0, some [FsNode.file "docker-compose.yml", FsNode.file "compose.yml"]⟩
      [] ⟨[], [], 0, 0⟩
      [FsNode.file "docker-compose.yml", FsNode.file "compose.yml"]
      ⟨[["r", "docker-compose.yml"]], [], 2, 0, true⟩ (by decide) rfl rfl
  have hshuf : shuffleChildren (fun _ l => l.reverse) []
      (some [FsNode.file "compose.yml", FsNode.file "docker-compose.yml"]) =
      some [FsNode.file "docker-compose.yml", FsNode.file "compose.yml"] := by
    rw [shuffleChildren_some]
    have h1 : shuffleTree (fun _ l => l.reverse) [] (FsNode.file "compose.yml") =
        FsNode.file "compose.yml" := by
      rw [shuffleTree]
    have h2 : shuffleTree (fun _ l => l.reverse) [] (FsNode.file "docker-compose.yml") =
        FsNode.file "docker-compose.yml" := by
      rw [shuffleTree]
    rw [List.map_cons, List.map_cons, List.map_nil, h1, h2]
    rfl
  refine ⟨fun p l => List.reverse_perm l, ?_, ?_⟩
  · show (scanTree ["r"]
        (some [FsNode.file "compose.yml", FsNode.file "docker-compose.yml"])
        (fun _ => false)
        { maxDepth := some 20
          maxEntries := some 1 }).truncated = true
    rw [hscan₁]
  · rw [hshuf]
    show applyHints (fun _ => none) false
        (attachDockerfilesToProjects ["r"]
          (collapseChildProjects
            (groupComposeProjects ["r"]
              (scanTree ["r"]
                (some [FsNode.file "docker-compose.yml", FsNode.file "compose.yml"])
                (fun _ => false)
                { maxDepth := some 20
                  maxEntries := some 1 }).composeFiles) false)
          (scanTree ["r"]
            (some [FsNode.file "docker-compose.yml", FsNode.file "compose.yml"])
            (fun _ => false)
            { maxDepth := some 20
              maxEntries := some 1 }).dockerfiles false) ≠
      applyHints (fun _ => none) false
        (attachDockerfilesToProjects ["r"]
          (collapseChildProjects
            (groupComposeProjects ["r"]
              (scanTree ["r"]
                (some [FsNode.file "compose.yml", FsNode.file "docker-compose.yml"])
                (fun _ => false)
                { maxDepth := some 20
                  maxEntries := some 1 }).composeFiles) false)
          (scanTree ["r"]
            (some [FsNode.file "compose.yml", FsNode.file "docker-compose.yml"])
            (fun _ => false)
            { maxDepth := some 20
              maxEntries := some 1 }).dockerfiles false)
    rw [hscan₂, hscan₁]
    decide

end Podshift
